import Mathlib

/-!
Verification of the easy-jsonrpc request/response engine (src/src/lib.rs) against its
natural-language specification.

The development shallowly embeds the engine:
* `Value` models `serde_json::Value` (numbers are modelled as integers; the engine
  itself never manufactures non-integral numbers, and floating point is outside the
  scope of this embedding);
* `Params`, `Id`, `Version`, `MethodCall`, `Notification`, `Call`, `Output`,
  `Request`, `Response`, `Error`, `ErrorCode` model the `jsonrpc_core` wire types
  used by the crate;
* `get_rpc_args` and `InvalidArgs` are translated directly from the crate's
  parameter binder;
* `JSONRPCServer` models the trait: an arbitrary `handle` function (the
  macro-generated dispatcher) together with the default methods `handle_call`,
  `handle_parsed` and `handle_raw`;
* `renderValue`/`parseValue` model `serde_json`'s compact serializer and its parser
  (the parser accepts the whitespace-insensitive JSON grammar over the modelled
  value space).
-/

namespace EasyJsonrpc

/-- JSON values (`serde_json::Value`).  Objects are modelled as association lists in
rendering order; `serde_json`'s map invariant (sorted, unique keys) is assumed where
needed via explicit `Nodup` hypotheses.  Numbers are modelled as integers. -/
inductive Value where
  | null : Value
  | bool (b : Bool) : Value
  | num (n : Int) : Value
  | str (s : String) : Value
  | arr (xs : List Value) : Value
  | obj (fields : List (String × Value)) : Value
  deriving Repr

/-- `jsonrpc_core::types::Params`: the "params" member of a call. -/
inductive Params where
  | none : Params
  | arr (xs : List Value) : Params
  | map (m : List (String × Value)) : Params
  deriving Repr

/-- `jsonrpc_core::types::Id`: wire-level call identifier (`Null`, `Num(u64)`, `Str`). -/
inductive Id where
  | null : Id
  | num (n : Nat) : Id
  | str (s : String) : Id
  deriving Repr

/-- `jsonrpc_core::types::Version`: protocol version tag, serialized as `"2.0"`. -/
inductive Version where
  | V2 : Version
  deriving Repr

/-- `jsonrpc_core::types::MethodCall`. -/
structure MethodCall where
  jsonrpc : Option Version
  method : String
  params : Params
  id : Id
  deriving Repr

/-- `jsonrpc_core::types::Notification`. -/
structure Notification where
  jsonrpc : Option Version
  method : String
  params : Params
  deriving Repr

/-- `jsonrpc_core::types::Call`: one parsed request entry. -/
inductive Call where
  | methodCall (c : MethodCall) : Call
  | notification (n : Notification) : Call
  | invalid (id : Id) : Call
  deriving Repr

/-- `jsonrpc_core::types::ErrorCode`. -/
inductive ErrorCode where
  | parseError : ErrorCode
  | invalidRequest : ErrorCode
  | methodNotFound : ErrorCode
  | invalidParams : ErrorCode
  | internalError : ErrorCode
  | serverError (code : Int) : ErrorCode
  deriving Repr, DecidableEq

/-- The numeric code of an `ErrorCode` (`ErrorCode::code`). -/
def ErrorCode.code : ErrorCode → Int
  | .parseError => -32700
  | .invalidRequest => -32600
  | .methodNotFound => -32601
  | .invalidParams => -32602
  | .internalError => -32603
  | .serverError c => c

/-- `ErrorCode::from(i64)`: the standard codes map to their named variants, anything
else to `ServerError`. -/
def ErrorCode.ofCode (n : Int) : ErrorCode :=
  if n = -32700 then .parseError
  else if n = -32600 then .invalidRequest
  else if n = -32601 then .methodNotFound
  else if n = -32602 then .invalidParams
  else if n = -32603 then .internalError
  else .serverError n

/-- `ErrorCode::description`. -/
def ErrorCode.description : ErrorCode → String
  | .parseError => "Parse error"
  | .invalidRequest => "Invalid request"
  | .methodNotFound => "Method not found"
  | .invalidParams => "Invalid params"
  | .internalError => "Internal error"
  | .serverError _ => "Server error"

/-- `jsonrpc_core::types::Error`. -/
structure Error where
  code : ErrorCode
  message : String
  data : Option Value
  deriving Repr

/-- `Error::new`. -/
def Error.new (code : ErrorCode) : Error :=
  { code := code, message := code.description, data := Option.none }

/-- `Error::invalid_request`. -/
def Error.invalid_request : Error := Error.new .invalidRequest

/-- `Error::method_not_found`. -/
def Error.method_not_found : Error := Error.new .methodNotFound

/-- `Error::invalid_params`. -/
def Error.invalid_params (message : String) : Error :=
  { code := .invalidParams, message := message, data := Option.none }

/-- `jsonrpc_core::types::Success`. -/
structure Success where
  jsonrpc : Option Version
  result : Value
  id : Id
  deriving Repr

/-- `jsonrpc_core::types::Failure`. -/
structure Failure where
  jsonrpc : Option Version
  error : Error
  id : Id
  deriving Repr

/-- `jsonrpc_core::types::Output`: synchronous response unit. -/
inductive Output where
  | success (s : Success) : Output
  | failure (f : Failure) : Output
  deriving Repr

/-- `jsonrpc_core::types::Request`: single call or batch. -/
inductive Request where
  | single (call : Call) : Request
  | batch (calls : List Call) : Request
  deriving Repr

/-- `jsonrpc_core::types::Response`: single output or batch. -/
inductive Response where
  | single (o : Output) : Response
  | batch (os : List Output) : Response
  deriving Repr

/-- `easy_jsonrpc::InvalidArgs` (src/src/lib.rs, lines 218-224). -/
inductive InvalidArgs where
  | WrongNumberOfArgs (expected actual : Nat) : InvalidArgs
  | ExtraNamedParameter (name : String) : InvalidArgs
  | MissingNamedParameter (name : String) : InvalidArgs
  | InvalidArgStructure (name : String) (index : Nat) : InvalidArgs
  deriving Repr, DecidableEq

/-- `impl Into<Error> for InvalidArgs` (src/src/lib.rs, lines 226-245). -/
def InvalidArgs.into : InvalidArgs → Error
  | .WrongNumberOfArgs expected actual =>
      Error.invalid_params
        ("WrongNumberOfArgs. Expected " ++ toString expected ++ ". Actual " ++
          toString actual)
  | .ExtraNamedParameter name => Error.invalid_params ("ExtraNamedParameter " ++ name)
  | .MissingNamedParameter name => Error.invalid_params ("MissingNamedParameter " ++ name)
  | .InvalidArgStructure name index =>
      Error.invalid_params
        ("InvalidArgStructure " ++ name ++ " at position " ++ toString index ++ ".")

/-- `BTreeMap::remove` on an association list with the removed entry's value:
returns the value stored at `key` and the list without that entry. -/
def mapRemove (key : String) : List (String × Value) → Option (Value × List (String × Value))
  | [] => Option.none
  | (k, v) :: rest =>
      if k = key then some (v, rest)
      else (mapRemove key rest).map (fun p => (p.1, (k, v) :: p.2))

/-- The removal loop of `get_rpc_args` over a named-parameter map
(src/src/lib.rs, lines 193-199): for each schema name in order, remove it from the
map, failing with `MissingNamedParameter` at the first absent name. -/
def removeArgs : List String → List (String × Value) →
    Except InvalidArgs (List Value × List (String × Value))
  | [], ma => .ok ([], ma)
  | name :: rest, ma =>
      match mapRemove name ma with
      | Option.none => .error (.MissingNamedParameter name)
      | some (v, ma') =>
          match removeArgs rest ma' with
          | .error e => .error e
          | .ok (vs, ma'') => .ok (v :: vs, ma'')

/-- `easy_jsonrpc::get_rpc_args` (src/src/lib.rs, lines 189-216).  Note that the
final length check constructs `WrongNumberOfArgs` with `expected := ar.len()` (the
payload length) and `actual := names.len()` (the schema length), exactly as the
source does. -/
def get_rpc_args (names : List String) (params : Params) : Except InvalidArgs (List Value) :=
  let arRes : Except InvalidArgs (List Value) :=
    match params with
    | .arr ar => .ok ar
    | .map ma =>
        match removeArgs names ma with
        | .error e => .error e
        | .ok (ar, ma') =>
            match ma' with
            | [] => .ok ar
            | (key, _) :: _ => .error (.ExtraNamedParameter key)
    | .none => .ok []
  match arRes with
  | .error e => .error e
  | .ok ar =>
      if ar.length ≠ names.length then
        .error (.WrongNumberOfArgs ar.length names.length)
      else
        .ok ar

/-- Decimal digit to character (`'0'`..`'9'`). -/
def digitChar (d : Nat) : Char := Char.ofNat (48 + d)

/-- Hexadecimal digit to lowercase character, as in `serde_json`'s escape table. -/
def hexChar (d : Nat) : Char :=
  if d < 10 then Char.ofNat (48 + d) else Char.ofNat (87 + d)

/-- Decimal rendering of a natural number, most significant digit first.
Fuel-indexed so that it reduces definitionally; `renderNat` supplies enough fuel. -/
def renderNatAux : Nat → Nat → List Char
  | 0, _ => []
  | fuel + 1, n =>
      if n < 10 then [digitChar n] else renderNatAux fuel (n / 10) ++ [digitChar (n % 10)]

/-- Decimal rendering of a natural number. -/
def renderNat (n : Nat) : List Char := renderNatAux (n + 1) n

/-- Decimal rendering of an integer (`serde_json` writes integers with no sign for
non-negative values and a leading minus otherwise). -/
def renderInt : Int → List Char
  | .ofNat m => renderNat m
  | .negSucc m => '-' :: renderNat (m + 1)

/-- `serde_json`'s escaping of one string character: quotes and backslashes are
escaped, the five short control escapes are used where available, all other control
characters become `\u00XX`, and everything else is emitted verbatim. -/
def escChar (c : Char) : List Char :=
  if c = '"' then ['\\', '"']
  else if c = '\\' then ['\\', '\\']
  else if c = '\x08' then ['\\', 'b']
  else if c = '\x09' then ['\\', 't']
  else if c = '\x0a' then ['\\', 'n']
  else if c = '\x0c' then ['\\', 'f']
  else if c = '\x0d' then ['\\', 'r']
  else if c.toNat < 32 then
    '\\' :: 'u' :: '0' :: '0' :: hexChar (c.toNat / 16) ::
      hexChar (c.toNat % 16) :: []
  else [c]

/-- Rendering of a JSON string literal: quoted, characters escaped. -/
def renderString (cs : List Char) : List Char :=
  '"' :: cs.flatMap escChar ++ ['"']

mutual

/-- `serde_json::to_string` on a `Value`: the compact rendering with no whitespace. -/
def renderValue : Value → List Char
  | .null => 'n' :: ('u' :: 'l' :: 'l' :: [])
  | .bool true => 't' :: ('r' :: 'u' :: 'e' :: [])
  | .bool false => 'f' :: ('a' :: 'l' :: 's' :: 'e' :: [])
  | .num n => renderInt n
  | .str s => renderString s.data
  | .arr xs => '[' :: (renderElems xs ++ [']'])
  | .obj fs => '{' :: (renderFields fs ++ ['}'])

/-- Comma-separated rendering of array elements. -/
def renderElems : List Value → List Char
  | [] => []
  | [x] => renderValue x
  | x :: xs => renderValue x ++ ',' :: renderElems xs

/-- Comma-separated rendering of object fields (`"key":value`). -/
def renderFields : List (String × Value) → List Char
  | [] => []
  | [(k, v)] => renderString k.data ++ ':' :: renderValue v
  | (k, v) :: fs => renderString k.data ++ ':' :: renderValue v ++ ',' :: renderFields fs

end

mutual

/-- Structural size of a `Value`; a lower bound for the parser fuel. -/
def vsize : Value → Nat
  | .arr xs => 1 + vsizeElems xs
  | .obj fs => 1 + vsizeFields fs
  | _ => 1

/-- Structural size of array elements. -/
def vsizeElems : List Value → Nat
  | [] => 0
  | x :: xs => 1 + vsize x + vsizeElems xs

/-- Structural size of object fields. -/
def vsizeFields : List (String × Value) → Nat
  | [] => 0
  | (_, v) :: fs => 1 + vsize v + vsizeFields fs

end

/-- Serialization of an `Id` (`Null` ↦ `null`, `Num` ↦ number, `Str` ↦ string). -/
def Id.toValue : Id → Value
  | .null => Value.null
  | .num n => Value.num (Int.ofNat n)
  | .str s => Value.str s

/-- Serialization of a `Version` (`V2` ↦ `"2.0"`). -/
def Version.toValue : Version → Value
  | .V2 => Value.str "2.0"

/-- Serialization of an `Error` object: fields `code`, `message`, and `data`
(the latter omitted when `None`, per `skip_serializing_if`). -/
def Error.toValue (e : Error) : Value :=
  Value.obj ([("code", Value.num e.code.code), ("message", Value.str e.message)] ++
    (match e.data with
     | Option.none => []
     | some d => [("data", d)]))

/-- Serialization of an `Output`: `Success`/`Failure` structs, with the `jsonrpc`
tag omitted when `None`, fields in declaration order. -/
def Output.toValue : Output → Value
  | .success s =>
      Value.obj ((match s.jsonrpc with
        | Option.none => []
        | some v => [("jsonrpc", v.toValue)]) ++
        [("result", s.result), ("id", s.id.toValue)])
  | .failure f =>
      Value.obj ((match f.jsonrpc with
        | Option.none => []
        | some v => [("jsonrpc", v.toValue)]) ++
        [("error", f.error.toValue), ("id", f.id.toValue)])

/-- Serialization of a `Response` (untagged: single output or array of outputs). -/
def Response.toValue : Response → Value
  | .single o => o.toValue
  | .batch os => Value.arr (os.map Output.toValue)

/-- `serde_json::to_string(&response)`: render the response to text. -/
def renderResponse (r : Response) : String :=
  String.mk (renderValue r.toValue)

/-- The `JSONRPCServer` trait: `handle` is the macro-generated dispatcher, an
arbitrary function from method name and params to a result. -/
structure JSONRPCServer where
  handle : String → Params → Except Error Value

/-- `JSONRPCServer::handle_call` (src/src/lib.rs, lines 110-142). -/
def JSONRPCServer.handle_call (s : JSONRPCServer) (call : Call) : Option Output :=
  match call with
  | .notification n =>
      let _ := s.handle n.method n.params
      Option.none
  | .methodCall c =>
      let output :=
        match s.handle c.method c.params with
        | .ok ok => Output.success { jsonrpc := c.jsonrpc, result := ok, id := c.id }
        | .error err => Output.failure { jsonrpc := c.jsonrpc, error := err, id := c.id }
      some output
  | .invalid id =>
      some (Output.failure
        { jsonrpc := some Version.V2, error := Error.invalid_request, id := id })

/-- `JSONRPCServer::handle_parsed` (src/src/lib.rs, lines 147-162). -/
def JSONRPCServer.handle_parsed (s : JSONRPCServer) (request : Request) : Option Response :=
  match request with
  | .single call => (s.handle_call call).map Response.single
  | .batch calls =>
      let outputs := calls.filterMap s.handle_call
      if outputs.isEmpty then Option.none else some (Response.batch outputs)

/-- JSON whitespace. -/
def isWsC (c : Char) : Bool := c = ' ' || c = '\t' || c = '\n' || c = '\r'

/-- Skip leading JSON whitespace. -/
def skipWs : List Char → List Char
  | [] => []
  | c :: r => if isWsC c then skipWs r else c :: r

/-- ASCII decimal digit test (on code points, so that it is `omega`-friendly). -/
def isDigitC (c : Char) : Bool := 48 ≤ c.toNat && c.toNat ≤ 57

/-- ASCII hexadecimal digit test. -/
def isHexDigitC (c : Char) : Bool :=
  (48 ≤ c.toNat && c.toNat ≤ 57) || (97 ≤ c.toNat && c.toNat ≤ 102) ||
    (65 ≤ c.toNat && c.toNat ≤ 70)

/-- Value of an ASCII hexadecimal digit. -/
def hexValC (c : Char) : Nat :=
  if 48 ≤ c.toNat && c.toNat ≤ 57 then c.toNat - 48
  else if 97 ≤ c.toNat then c.toNat - 87
  else c.toNat - 55

/-- Greedily parse a run of decimal digits, accumulating into `acc`. -/
def parseDigits : List Char → Nat → Nat × List Char
  | [], acc => (acc, [])
  | c :: r, acc =>
      if isDigitC c then parseDigits r (acc * 10 + (c.toNat - 48)) else (acc, c :: r)

/-- Parse a JSON number (restricted to the integers of the modelled value space). -/
def parseNumber (s : List Char) : Option (Int × List Char) :=
  match s with
  | [] => Option.none
  | c :: r =>
      if c = '-' then
        match r with
        | [] => Option.none
        | d :: _ =>
            if isDigitC d then
              let p := parseDigits r 0
              some (-(p.1 : Int), p.2)
            else Option.none
      else if isDigitC c then
        let p := parseDigits (c :: r) 0
        some ((p.1 : Int), p.2)
      else Option.none

/-- Decode one short escape character (`\"`, `\\`, `\/`, `\b`, `\t`, `\n`, `\f`, `\r`). -/
def unescapeShort (e : Char) : Option Char :=
  if e = '"' then some '"'
  else if e = '\\' then some '\\'
  else if e = '/' then some '/'
  else if e = 'b' then some '\x08'
  else if e = 't' then some '\x09'
  else if e = 'n' then some '\x0a'
  else if e = 'f' then some '\x0c'
  else if e = 'r' then some '\x0d'
  else Option.none

/-- Parse the body of a JSON string literal (after the opening quote) up to and
including the closing quote, decoding escapes.  Raw control characters are
rejected, as `serde_json` does. -/
def parseStringBody : List Char → Option (List Char × List Char)
  | [] => Option.none
  | c :: r =>
      if c = '"' then some ([], r)
      else if c = '\\' then
        match r with
        | [] => Option.none
        | e :: r' =>
            if e = 'u' then
              match r' with
              | h1 :: h2 :: h3 :: h4 :: r'' =>
                  if isHexDigitC h1 && isHexDigitC h2 && isHexDigitC h3 && isHexDigitC h4 then
                    let n := hexValC h1 * 4096 + hexValC h2 * 256 + hexValC h3 * 16 + hexValC h4
                    if n.isValidChar then
                      (parseStringBody r'').map (fun p => (Char.ofNat n :: p.1, p.2))
                    else Option.none
                  else Option.none
              | _ => Option.none
            else
              match unescapeShort e with
              | some c' => (parseStringBody r').map (fun p => (c' :: p.1, p.2))
              | Option.none => Option.none
      else if c.toNat < 32 then Option.none
      else (parseStringBody r).map (fun p => (c :: p.1, p.2))

/-- `List.take`-style prefix match helper for keyword literals. -/
def expectChars : List Char → List Char → Option (List Char)
  | [], s => some s
  | _ :: _, [] => Option.none
  | k :: ks, c :: s => if c = k then expectChars ks s else Option.none

mutual

/-- `serde_json`'s parser over the modelled value space, fuel-indexed.  Accepts the
standard JSON grammar (with whitespace), restricted to integral numbers and
non-surrogate-pair escapes. -/
def parseValue : Nat → List Char → Option (Value × List Char)
  | 0, _ => Option.none
  | fuel + 1, s =>
      match skipWs s with
      | [] => Option.none
      | c :: r =>
          if c = 'n' then (expectChars ['u', 'l', 'l'] r).map (fun r' => (Value.null, r'))
          else if c = 't' then (expectChars ['r', 'u', 'e'] r).map (fun r' => (Value.bool true, r'))
          else if c = 'f' then
            (expectChars ['a', 'l', 's', 'e'] r).map (fun r' => (Value.bool false, r'))
          else if c = '"' then
            (parseStringBody r).map (fun p => (Value.str (String.mk p.1), p.2))
          else if c = '[' then
            match skipWs r with
            | ']' :: r' => some (Value.arr [], r')
            | _ => (parseElems fuel r).map (fun p => (Value.arr p.1, p.2))
          else if c = '{' then
            match skipWs r with
            | '}' :: r' => some (Value.obj [], r')
            | _ => (parseFields fuel r).map (fun p => (Value.obj p.1, p.2))
          else if c = '-' || isDigitC c then
            (parseNumber (c :: r)).map (fun p => (Value.num p.1, p.2))
          else Option.none

/-- Parse a nonempty comma-separated list of array elements and the closing `]`. -/
def parseElems : Nat → List Char → Option (List Value × List Char)
  | 0, _ => Option.none
  | fuel + 1, s =>
      match parseValue fuel s with
      | Option.none => Option.none
      | some (v, r) =>
          match skipWs r with
          | ',' :: r' => (parseElems fuel r').map (fun p => (v :: p.1, p.2))
          | ']' :: r' => some ([v], r')
          | _ => Option.none

/-- Parse a nonempty comma-separated list of object fields and the closing `}`. -/
def parseFields : Nat → List Char → Option (List (String × Value) × List Char)
  | 0, _ => Option.none
  | fuel + 1, s =>
      match skipWs s with
      | '"' :: r =>
          match parseStringBody r with
          | Option.none => Option.none
          | some (k, r₁) =>
              match skipWs r₁ with
              | ':' :: r₂ =>
                  match parseValue fuel r₂ with
                  | Option.none => Option.none
                  | some (v, r₃) =>
                      match skipWs r₃ with
                      | ',' :: r₄ =>
                          (parseFields fuel r₄).map
                            (fun p => ((String.mk k, v) :: p.1, p.2))
                      | '}' :: r₄ => some ([(String.mk k, v)], r₄)
                      | _ => Option.none
              | _ => Option.none
      | _ => Option.none

end

/-- `serde_json::from_str` to a `Value`: parse one JSON value and require only
whitespace to follow. -/
def parseValueText (s : String) : Option Value :=
  match parseValue (s.data.length + 1) s.data with
  | some (v, rest) => if skipWs rest = [] then some v else Option.none
  | Option.none => Option.none

/-- First-match lookup in an object's field list. -/
def mapLookup (key : String) : List (String × Value) → Option Value
  | [] => Option.none
  | (k, v) :: rest => if k = key then some v else mapLookup key rest

/-- The struct-deserialization key check: no duplicate fields and, per
`deny_unknown_fields`, no key outside the declared field set. -/
def fieldsOk (fs : List (String × Value)) (allowed : List String) : Bool :=
  decide ((fs.map Prod.fst).Nodup) && fs.all (fun p => allowed.contains p.1)

/-- Deserialization of an `Id` (untagged `Null`/`Num(u64)`/`Str`). -/
def Id.fromValue : Value → Option Id
  | .null => some Id.null
  | .num n => if 0 ≤ n then some (Id.num n.toNat) else Option.none
  | .str s => some (Id.str s)
  | _ => Option.none

/-- Deserialization of an `Option<Version>` field value (`null` ↦ `None`,
`"2.0"` ↦ `Some(V2)`). -/
def versionFieldFromValue : Value → Option (Option Version)
  | .null => some Option.none
  | .str s => if s = "2.0" then some (some Version.V2) else Option.none
  | _ => Option.none

/-- Deserialization of `Params` (`jsonrpc_core`'s manual impl: array, object, or
null; anything else is rejected). -/
def Params.fromValue : Value → Option Params
  | .arr xs => some (Params.arr xs)
  | .obj fs => some (Params.map fs)
  | .null => some Params.none
  | _ => Option.none

/-- Deserialization of a `MethodCall` struct (`deny_unknown_fields`; `params`
defaults to `None` when absent; `method` and `id` required). -/
def MethodCall.fromValue : Value → Option MethodCall
  | .obj fs =>
      if fieldsOk fs ["jsonrpc", "method", "params", "id"] then
        match mapLookup "method" fs, mapLookup "id" fs with
        | some (.str method), some idv =>
            match Id.fromValue idv with
            | Option.none => Option.none
            | some id =>
                match (match mapLookup "params" fs with
                       | Option.none => some Params.none
                       | some pv => Params.fromValue pv) with
                | Option.none => Option.none
                | some params =>
                    match (match mapLookup "jsonrpc" fs with
                           | Option.none => some Option.none
                           | some jv => versionFieldFromValue jv) with
                    | Option.none => Option.none
                    | some jsonrpc => some ⟨jsonrpc, method, params, id⟩
        | _, _ => Option.none
      else Option.none
  | _ => Option.none

/-- Deserialization of a `Notification` struct (as `MethodCall` but with no `id`
field allowed). -/
def Notification.fromValue : Value → Option Notification
  | .obj fs =>
      if fieldsOk fs ["jsonrpc", "method", "params"] then
        match mapLookup "method" fs with
        | some (.str method) =>
            match (match mapLookup "params" fs with
                   | Option.none => some Params.none
                   | some pv => Params.fromValue pv) with
            | Option.none => Option.none
            | some params =>
                match (match mapLookup "jsonrpc" fs with
                       | Option.none => some Option.none
                       | some jv => versionFieldFromValue jv) with
                | Option.none => Option.none
                | some jsonrpc => some ⟨jsonrpc, method, params⟩
        | _ => Option.none
      else Option.none
  | _ => Option.none

/-- The id recovered for the `Invalid` fallback variant: the value's `id` member
when it is a well-formed id, `Null` otherwise. -/
def invalidId : Value → Id
  | .obj fs => ((mapLookup "id" fs).bind Id.fromValue).getD Id.null
  | _ => Id.null

/-- Deserialization of a `Call` (untagged; the `Invalid` fallback makes it total):
try `MethodCall`, then `Notification`, else degrade to `Invalid`. -/
def Call.fromValue (v : Value) : Call :=
  match MethodCall.fromValue v with
  | some mc => Call.methodCall mc
  | Option.none =>
      match Notification.fromValue v with
      | some n => Call.notification n
      | Option.none => Call.invalid (invalidId v)

/-- Deserialization of a `Request` (untagged: a JSON array is a batch, anything
else parses as a single call). -/
def Request.fromValue : Value → Request
  | .arr xs => Request.batch (xs.map Call.fromValue)
  | v => Request.single (Call.fromValue v)

/-- `serde_json::from_str::<Request>`. -/
def parseRequest (s : String) : Option Request :=
  (parseValueText s).map Request.fromValue

/-- `JSONRPCServer::handle_raw` (src/src/lib.rs, lines 166-176): parse, degrading
to a single invalid call with null id on failure, process, and render.  Rendering
of engine-produced responses never fails in the model, matching the comment in the
source. -/
def JSONRPCServer.handle_raw (s : JSONRPCServer) (request : String) : Option String :=
  let req : Request := (parseRequest request).getD (Request.single (Call.invalid Id.null))
  (s.handle_parsed req).map renderResponse

/-- Deserialization of an `Error` object (`code` and `message` required, `data`
optional with `null` collapsing to `None`). -/
def Error.fromValue : Value → Option Error
  | .obj fs =>
      if fieldsOk fs ["code", "message", "data"] then
        match mapLookup "code" fs, mapLookup "message" fs with
        | some (.num n), some (.str message) =>
            some { code := ErrorCode.ofCode n, message := message,
                   data := match mapLookup "data" fs with
                           | Option.none => Option.none
                           | some .null => Option.none
                           | some d => some d }
        | _, _ => Option.none
      else Option.none
  | _ => Option.none

/-- Deserialization of a `Success` struct. -/
def Success.fromValue : Value → Option Success
  | .obj fs =>
      if fieldsOk fs ["jsonrpc", "result", "id"] then
        match mapLookup "result" fs, mapLookup "id" fs with
        | some result, some idv =>
            match Id.fromValue idv with
            | Option.none => Option.none
            | some id =>
                match (match mapLookup "jsonrpc" fs with
                       | Option.none => some Option.none
                       | some jv => versionFieldFromValue jv) with
                | Option.none => Option.none
                | some jsonrpc => some ⟨jsonrpc, result, id⟩
        | _, _ => Option.none
      else Option.none
  | _ => Option.none

/-- Deserialization of a `Failure` struct. -/
def Failure.fromValue : Value → Option Failure
  | .obj fs =>
      if fieldsOk fs ["jsonrpc", "error", "id"] then
        match mapLookup "error" fs, mapLookup "id" fs with
        | some ev, some idv =>
            match Error.fromValue ev, Id.fromValue idv with
            | some error, some id =>
                match (match mapLookup "jsonrpc" fs with
                       | Option.none => some Option.none
                       | some jv => versionFieldFromValue jv) with
                | Option.none => Option.none
                | some jsonrpc => some ⟨jsonrpc, error, id⟩
            | _, _ => Option.none
        | _, _ => Option.none
      else Option.none
  | _ => Option.none

/-- Deserialization of an `Output` (untagged: `Success` first, then `Failure`). -/
def Output.fromValue (v : Value) : Option Output :=
  match Success.fromValue v with
  | some s => some (Output.success s)
  | Option.none =>
      match Failure.fromValue v with
      | some f => some (Output.failure f)
      | Option.none => Option.none

/-- Deserialize every element of a batch of outputs. -/
def outputsFromValues : List Value → Option (List Output)
  | [] => some []
  | v :: vs =>
      match Output.fromValue v with
      | Option.none => Option.none
      | some o =>
          match outputsFromValues vs with
          | Option.none => Option.none
          | some os => some (o :: os)

/-- Deserialization of a `Response` (untagged: single output or array of outputs). -/
def Response.fromValue : Value → Option Response
  | .arr xs => (outputsFromValues xs).map Response.batch
  | v => (Output.fromValue v).map Response.single

/-- `serde_json::from_str::<Response>`. -/
def parseResponseText (s : String) : Option Response :=
  (parseValueText s).bind Response.fromValue

/-- The id carried by a call unit (`None` for notifications, which have no id). -/
def Call.unitId : Call → Option Id
  | .methodCall c => some c.id
  | .notification _ => Option.none
  | .invalid id => some id

/-- The id carried by an output unit. -/
def Output.unitId : Output → Id
  | .success s => s.id
  | .failure f => f.id

/-- A server whose dispatcher accepts every method: used to instantiate the
universally quantified theorems at a concrete handler. -/
def constServer : JSONRPCServer := { handle := fun _ _ => .ok Value.null }

/-- The dispatcher the `jsonrpc_server` macro generates for a trait with the single
zero-parameter method `greet() -> String` returning `"hello"` (the shape of the
`null_args` test in src/src/lib.rs): bind arguments with `get_rpc_args`, call the
target, serialize the result. -/
def greetServer : JSONRPCServer :=
  { handle := fun method params =>
      match method with
      | "greet" =>
          match get_rpc_args [] params with
          | .error e => .error e.into
          | .ok _ => .ok (Value.str "hello")
      | _ => .error Error.method_not_found }

/-- The rendering of the invalid-request failure with null id. -/
def invalidRequestRendered : String :=
  renderResponse (Response.single
    (Output.failure { jsonrpc := some Version.V2, error := Error.invalid_request, id := Id.null }))

/-- `(filterMap f l).map some` is a sublist of `l.map f`: each kept output comes
from a distinct input position, in the same relative order. -/
theorem filterMap_map_some_sublist {α β : Type} (f : α → Option β) :
    ∀ l : List α, List.Sublist ((l.filterMap f).map some) (l.map f) := by
  intro l
  induction l with
  | nil => simp
  | cons a l ih =>
    cases h : f a with
    | none =>
      simp only [List.filterMap_cons, h, List.map_cons]
      exact List.Sublist.cons Option.none ih
    | some b =>
      simp only [List.filterMap_cons, h, List.map_cons]
      exact List.Sublist.cons₂ (some b) ih

/-- The number of outputs of `filterMap` is the number of inputs on which the
function fires. -/
theorem filterMap_length_eq_filter_isSome {α β : Type} (f : α → Option β) :
    ∀ l : List α, (l.filterMap f).length = (l.filter (fun a => (f a).isSome)).length := by
  intro l
  induction l with
  | nil => rfl
  | cons a l ih =>
    cases h : f a with
    | none => simp [List.filterMap_cons, h, ih]
    | some b => simp [List.filterMap_cons, h, ih]

/-- C1.  The claim states that a positional payload whose length differs from the
schema length fails with `WrongArgumentCount{expected: schema.length, actual:
payload.length}`.  The code does fail with the wrong-argument-count error, but it
constructs it with the two fields swapped: `expected` is the payload length and
`actual` is the schema length (src/src/lib.rs lines 208-212).  At schema `["a"]`
and empty positional payload the code yields `expected = 0`, `actual = 1`,
not `expected = 1`, `actual = 0` as the claim requires. -/
theorem c1_wrong_number_of_args_fields_swapped :
    get_rpc_args ["a"] (Params.arr []) =
      .error (InvalidArgs.WrongNumberOfArgs 0 1) ∧
    get_rpc_args ["a"] (Params.arr []) ≠
      .error (InvalidArgs.WrongNumberOfArgs 1 0) := by
  refine ⟨rfl, fun h => ?_⟩
  rw [show get_rpc_args ["a"] (Params.arr []) =
        .error (InvalidArgs.WrongNumberOfArgs 0 1) from rfl] at h
  simp at h

/-- C2.  For every notification unit, `handle_call` returns `None` whatever the
handler does: the handler's result is bound to a discarded value. -/
theorem c2_notification_returns_none (s : JSONRPCServer) (n : Notification) :
    s.handle_call (Call.notification n) = Option.none := rfl

/-- C3.  A batch in which every call unit yields no output (in particular a batch
of notifications) produces `None`, never an empty batch response. -/
theorem c3_all_silent_batch_returns_none (s : JSONRPCServer) (calls : List Call)
    (h : ∀ c ∈ calls, s.handle_call c = Option.none) :
    s.handle_parsed (Request.batch calls) = Option.none := by
  have hnil : calls.filterMap s.handle_call = [] := List.filterMap_eq_nil_iff.mpr h
  simp [JSONRPCServer.handle_parsed, hnil]

/-- Witness for C3: a batch consisting solely of notifications. -/
theorem c3_witness :
    constServer.handle_parsed (Request.batch
      [Call.notification { jsonrpc := some Version.V2, method := "a", params := Params.none },
       Call.notification { jsonrpc := some Version.V2, method := "b", params := Params.none }]) =
      Option.none :=
  c3_all_silent_batch_returns_none constServer _ (by
    intro c hc
    simp only [List.mem_cons, List.not_mem_nil, or_false] at hc
    rcases hc with rfl | rfl <;> rfl)

/-- C4.  If a batch produces a batch response, its outputs are exactly the
`Some`-outputs of the call units; they are drawn from the call units in their
original order (the outputs, wrapped in `some`, form a sublist of the per-unit
dispatch results) and nothing is dropped beyond the `None`-yielding units. -/
theorem c4_batch_outputs_ordered (s : JSONRPCServer) (calls : List Call) (outs : List Output)
    (h : s.handle_parsed (Request.batch calls) = some (Response.batch outs)) :
    outs = calls.filterMap s.handle_call ∧
    List.Sublist (outs.map some) (calls.map s.handle_call) ∧
    outs.length = (calls.filter (fun c => (s.handle_call c).isSome)).length := by
  have h' : (if (calls.filterMap s.handle_call).isEmpty then (Option.none : Option Response)
      else some (Response.batch (calls.filterMap s.handle_call))) = some (Response.batch outs) := h
  have houts : outs = calls.filterMap s.handle_call := by
    by_cases he : (calls.filterMap s.handle_call).isEmpty
    · rw [if_pos he] at h'
      exact Option.noConfusion h'
    · rw [if_neg he] at h'
      simp only [Option.some.injEq, Response.batch.injEq] at h'
      exact h'.symm
  subst houts
  exact ⟨rfl, filterMap_map_some_sublist _ _, filterMap_length_eq_filter_isSome _ _⟩

/-- The three call units of scenario 5: method call (id 1), notification,
method call (id 2). -/
def scenario5Calls : List Call :=
  [Call.methodCall { jsonrpc := some Version.V2, method := "a", params := Params.none, id := Id.num 1 },
   Call.notification { jsonrpc := some Version.V2, method := "b", params := Params.none },
   Call.methodCall { jsonrpc := some Version.V2, method := "c", params := Params.none, id := Id.num 2 }]

/-- The two outputs scenario 5 produces under `constServer`. -/
def scenario5Outs : List Output :=
  [Output.success { jsonrpc := some Version.V2, result := Value.null, id := Id.num 1 },
   Output.success { jsonrpc := some Version.V2, result := Value.null, id := Id.num 2 }]

/-- Witness for C4: scenario 5 — batch `[MethodCall (id 1), Notification,
MethodCall (id 2)]` yields exactly the two method-call outputs in order. -/
theorem c4_witness :
    scenario5Outs = scenario5Calls.filterMap constServer.handle_call ∧
    List.Sublist (scenario5Outs.map some) (scenario5Calls.map constServer.handle_call) ∧
    scenario5Outs.length =
      (scenario5Calls.filter (fun c => (constServer.handle_call c).isSome)).length :=
  c4_batch_outputs_ordered constServer scenario5Calls scenario5Outs rfl

/-- C5.  Every output unit carries the id of the call unit that produced it, and an
unparseable raw request is processed as an invalid call with null id, so the
rendered failure carries a null id. -/
theorem c5_output_id_matches_call_id :
    (∀ (s : JSONRPCServer) (c : Call) (out : Output),
      s.handle_call c = some out → c.unitId = some out.unitId) ∧
    (∀ (s : JSONRPCServer) (raw : String), parseRequest raw = Option.none →
      s.handle_raw raw = some invalidRequestRendered) := by
  constructor
  · intro s c out h
    cases c with
    | notification n => simp [JSONRPCServer.handle_call] at h
    | methodCall mc =>
      simp only [JSONRPCServer.handle_call, Option.some.injEq] at h
      cases hh : s.handle mc.method mc.params with
      | ok v => rw [hh] at h; subst h; rfl
      | error e => rw [hh] at h; subst h; rfl
    | invalid id =>
      simp only [JSONRPCServer.handle_call, Option.some.injEq] at h
      subst h; rfl
  · intro s raw h
    show ((parseRequest raw).getD (Request.single (Call.invalid Id.null)) |> s.handle_parsed
      |>.map renderResponse) = some invalidRequestRendered
    rw [h]
    rfl

/-- Witness for C5: a concrete method call whose output takes its id, and a
concrete unparseable request. -/
theorem c5_witness :
    (Call.methodCall { jsonrpc := some Version.V2, method := "m", params := Params.none, id := Id.num 7 }).unitId =
      some (Output.success { jsonrpc := some Version.V2, result := Value.null, id := Id.num 7 }).unitId ∧
    constServer.handle_raw "@" = some invalidRequestRendered :=
  ⟨c5_output_id_matches_call_id.1 constServer _ _ rfl,
   c5_output_id_matches_call_id.2 constServer "@" rfl⟩

/-- C6.  A raw request that fails structured decoding is substituted by a single
invalid call with null id; `handle_raw` then returns `Some` of a text which decodes
to a `Failure` with error code `InvalidRequest` (-32600) and null id. -/
theorem c6_unparseable_degrades_to_invalid_request (s : JSONRPCServer) (raw : String)
    (h : parseRequest raw = Option.none) :
    s.handle_raw raw = some invalidRequestRendered ∧
    parseResponseText invalidRequestRendered =
      some (Response.single (Output.failure
        { jsonrpc := some Version.V2, error := Error.invalid_request, id := Id.null })) := by
  constructor
  · show ((parseRequest raw).getD (Request.single (Call.invalid Id.null)) |> s.handle_parsed
      |>.map renderResponse) = some invalidRequestRendered
    rw [h]
    rfl
  · rfl

/-- Witness for C6: the text `"@"` is not valid JSON. -/
theorem c6_witness :
    constServer.handle_raw "@" = some invalidRequestRendered ∧
    parseResponseText invalidRequestRendered =
      some (Response.single (Output.failure
        { jsonrpc := some Version.V2, error := Error.invalid_request, id := Id.null })) :=
  c6_unparseable_degrades_to_invalid_request constServer "@" rfl

/-- C8.  An absent parameter payload is treated exactly as the empty positional
sequence: for the empty schema binding succeeds with no arguments, for a nonempty
schema it fails with the wrong-argument-count error; and for the zero-parameter
method `greet`, the payloads `null`, omitted, `[]` and `{}` all produce the same
successful response (scenario 4). -/
theorem c8_absent_params_as_empty_list :
    (∀ names : List String, get_rpc_args names Params.none = get_rpc_args names (Params.arr [])) ∧
    (get_rpc_args [] Params.none = .ok []) ∧
    (∀ names : List String, names ≠ [] →
      get_rpc_args names Params.none = .error (InvalidArgs.WrongNumberOfArgs 0 names.length)) ∧
    (greetServer.handle_raw
        "\x7b\"jsonrpc\": \"2.0\", \"method\": \"greet\", \"params\": null, \"id\": 1\x7d" =
          some "\x7b\"jsonrpc\":\"2.0\",\"result\":\"hello\",\"id\":1\x7d" ∧
     greetServer.handle_raw
        "\x7b\"jsonrpc\": \"2.0\", \"method\": \"greet\", \"id\": 1\x7d" =
          some "\x7b\"jsonrpc\":\"2.0\",\"result\":\"hello\",\"id\":1\x7d" ∧
     greetServer.handle_raw
        "\x7b\"jsonrpc\": \"2.0\", \"method\": \"greet\", \"params\": [], \"id\": 1\x7d" =
          some "\x7b\"jsonrpc\":\"2.0\",\"result\":\"hello\",\"id\":1\x7d" ∧
     greetServer.handle_raw
        "\x7b\"jsonrpc\": \"2.0\", \"method\": \"greet\", \"params\": \x7b\x7d, \"id\": 1\x7d" =
          some "\x7b\"jsonrpc\":\"2.0\",\"result\":\"hello\",\"id\":1\x7d") := by
  refine ⟨fun names => rfl, rfl, fun names hne => ?_, rfl, rfl, rfl, rfl⟩
  cases names with
  | nil => exact absurd rfl hne
  | cons a l => simp [get_rpc_args]

/-- Witness for C8: a nonempty schema with an absent payload fails with the
wrong-argument-count error. -/
theorem c8_witness :
    get_rpc_args ["a"] Params.none = .error (InvalidArgs.WrongNumberOfArgs 0 1) :=
  c8_absent_params_as_empty_list.2.2.1 ["a"] (by simp)

/-- Equation lemma: removing from a list whose head matches. -/
theorem mapRemove_cons_eq (key : String) (v : Value) (rest : List (String × Value)) :
    mapRemove key ((key, v) :: rest) = some (v, rest) := by
  simp [mapRemove]

/-- Equation lemma: removing from a list whose head does not match. -/
theorem mapRemove_cons_ne (key k : String) (v : Value) (rest : List (String × Value))
    (h : k ≠ key) :
    mapRemove key ((k, v) :: rest) =
      (mapRemove key rest).map (fun p => (p.1, (k, v) :: p.2)) := by
  simp [mapRemove, h]

/-- `mapRemove` fails exactly when the key is absent. -/
theorem mapRemove_eq_none_iff (key : String) :
    ∀ ma : List (String × Value), mapRemove key ma = Option.none ↔ key ∉ ma.map Prod.fst := by
  intro ma
  induction ma with
  | nil => simp [mapRemove]
  | cons p rest ih =>
    obtain ⟨k, v⟩ := p
    by_cases hk : k = key
    · subst hk
      simp [mapRemove]
    · simp [mapRemove, hk, Option.map_eq_none', ih, Ne.symm hk]

/-- A successful `mapRemove` splits the list at the first entry with the removed
key. -/
theorem mapRemove_some_decomp (key : String) (v : Value) :
    ∀ (ma ma' : List (String × Value)), mapRemove key ma = some (v, ma') →
      ∃ pre post, ma = pre ++ (key, v) :: post ∧ ma' = pre ++ post ∧
        key ∉ pre.map Prod.fst := by
  intro ma
  induction ma with
  | nil => intro ma' h; simp [mapRemove] at h
  | cons p rest ih =>
    obtain ⟨k, w⟩ := p
    intro ma' h
    by_cases hk : k = key
    · subst hk
      rw [mapRemove_cons_eq] at h
      obtain ⟨rfl, rfl⟩ := Prod.mk.injEq .. ▸ Option.some.inj h
      exact ⟨[], rest, rfl, rfl, by simp⟩
    · rw [mapRemove_cons_ne key k w rest hk] at h
      rcases hmap : mapRemove key rest with _ | q
      · rw [hmap] at h; exact Option.noConfusion h
      · rw [hmap] at h
        obtain ⟨v', rest'⟩ := q
        simp only [Option.map_some', Option.some.injEq, Prod.mk.injEq] at h
        obtain ⟨rfl, rfl⟩ := h
        obtain ⟨pre, post, hrest, hrest', hpre⟩ := ih rest' hmap
        refine ⟨(k, w) :: pre, post, by simp [hrest], by simp [hrest'], ?_⟩
        simp only [List.map_cons, List.mem_cons, not_or]
        exact ⟨Ne.symm hk, hpre⟩

/-- Lookup distributes over append: the left list takes precedence. -/
theorem mapLookup_append (key : String) :
    ∀ l1 l2 : List (String × Value),
      mapLookup key (l1 ++ l2) =
        (match mapLookup key l1 with
         | some v => some v
         | Option.none => mapLookup key l2) := by
  intro l1 l2
  induction l1 with
  | nil => simp [mapLookup]
  | cons p rest ih =>
    obtain ⟨k, w⟩ := p
    by_cases hk : k = key
    · simp [mapLookup, hk]
    · simp [mapLookup, hk, ih]

/-- Lookup fails exactly when the key is absent. -/
theorem mapLookup_eq_none_iff (key : String) :
    ∀ ma : List (String × Value), mapLookup key ma = Option.none ↔ key ∉ ma.map Prod.fst := by
  intro ma
  induction ma with
  | nil => simp [mapLookup]
  | cons p rest ih =>
    obtain ⟨k, w⟩ := p
    by_cases hk : k = key
    · subst hk; simp [mapLookup]
    · simp [mapLookup, hk, ih, Ne.symm hk]

/-- After removing `key`, lookups of other keys are unchanged. -/
theorem mapRemove_preserves_other_lookups (key : String) (v : Value)
    (ma ma' : List (String × Value)) (h : mapRemove key ma = some (v, ma'))
    (k : String) (hk : k ≠ key) : mapLookup k ma' = mapLookup k ma := by
  obtain ⟨pre, post, rfl, rfl, hpre⟩ := mapRemove_some_decomp key v ma ma' h
  rw [mapLookup_append, mapLookup_append]
  cases mapLookup k pre with
  | none => simp [mapLookup, Ne.symm hk]
  | some w => rfl

/-- A successful `mapRemove` returns the value the key was bound to. -/
theorem mapRemove_lookup (key : String) (v : Value) (ma ma' : List (String × Value))
    (h : mapRemove key ma = some (v, ma')) : mapLookup key ma = some v := by
  obtain ⟨pre, post, rfl, rfl, hpre⟩ := mapRemove_some_decomp key v ma ma' h
  rw [mapLookup_append]
  rw [(mapLookup_eq_none_iff key pre).mpr hpre]
  simp [mapLookup]

/-- The keys remaining after a removal form a sublist of the original keys. -/
theorem mapRemove_keys_sublist (key : String) (v : Value) (ma ma' : List (String × Value))
    (h : mapRemove key ma = some (v, ma')) :
    List.Sublist (ma'.map Prod.fst) (ma.map Prod.fst) := by
  obtain ⟨pre, post, rfl, rfl, hpre⟩ := mapRemove_some_decomp key v ma ma' h
  simp only [List.map_append, List.map_cons]
  exact (List.sublist_cons_self _ _).append_left _

/-- Equation lemma for the removal loop when the head name is present. -/
theorem removeArgs_cons_some (name : String) (rest : List String)
    (ma ma₁ : List (String × Value)) (v : Value) (h : mapRemove name ma = some (v, ma₁)) :
    removeArgs (name :: rest) ma =
      (match removeArgs rest ma₁ with
       | .error e => .error e
       | .ok (vs, ma'') => .ok (v :: vs, ma'')) := by
  simp [removeArgs, h]

/-- Equation lemma for the removal loop when the head name is absent. -/
theorem removeArgs_cons_none (name : String) (rest : List String)
    (ma : List (String × Value)) (h : mapRemove name ma = Option.none) :
    removeArgs (name :: rest) ma = .error (.MissingNamedParameter name) := by
  simp [removeArgs, h]

/-- Unfolding of `get_rpc_args` on a named-parameter map: run the removal loop,
report one residual key if any remains, otherwise run the (always satisfied)
length check. -/
theorem get_rpc_args_map_eq (names : List String) (ma : List (String × Value)) :
    get_rpc_args names (Params.map ma) =
      (match removeArgs names ma with
       | .error e => .error e
       | .ok (ar, ma') =>
           match ma' with
           | [] =>
               if ar.length ≠ names.length then
                 .error (.WrongNumberOfArgs ar.length names.length)
               else .ok ar
           | (key, _) :: _ => .error (.ExtraNamedParameter key)) := by
  rcases h : removeArgs names ma with e | p
  · simp [get_rpc_args, h]
  · obtain ⟨ar, ma'⟩ := p
    rcases ma' with _ | ⟨q, tail⟩
    · simp [get_rpc_args, h]
    · obtain ⟨key, w⟩ := q
      simp [get_rpc_args, h]

/-- `removeArgs` yields one value per schema name. -/
theorem removeArgs_length :
    ∀ (names : List String) (ma : List (String × Value)) vs ma'',
      removeArgs names ma = .ok (vs, ma'') → vs.length = names.length := by
  intro names
  induction names with
  | nil =>
    intro ma vs ma'' h
    simp only [removeArgs, Except.ok.injEq, Prod.mk.injEq] at h
    simp [← h.1]
  | cons name rest ih =>
    intro ma vs ma'' h
    rcases hrm : mapRemove name ma with _ | q
    · rw [removeArgs_cons_none name rest ma hrm] at h
      exact Except.noConfusion h
    · obtain ⟨v, ma₁⟩ := q
      rw [removeArgs_cons_some name rest ma ma₁ v hrm] at h
      rcases hra : removeArgs rest ma₁ with e | q'
      · rw [hra] at h; exact Except.noConfusion h
      · rw [hra] at h
        obtain ⟨vs', ma₂⟩ := q'
        simp only [Except.ok.injEq, Prod.mk.injEq] at h
        obtain ⟨h1, _⟩ := h
        subst h1
        simp [ih ma₁ vs' ma₂ hra]

/-- If some schema name is absent from the map, the removal loop fails with
`MissingNamedParameter` naming a schema name (no distinctness assumptions
needed). -/
theorem removeArgs_missing :
    ∀ (names : List String) (ma : List (String × Value)),
      (∃ n ∈ names, n ∉ ma.map Prod.fst) →
      ∃ n ∈ names, removeArgs names ma = .error (.MissingNamedParameter n) := by
  intro names
  induction names with
  | nil => intro ma h; simp at h
  | cons name rest ih =>
    intro ma h
    rcases hrm : mapRemove name ma with _ | q
    · exact ⟨name, by simp, removeArgs_cons_none name rest ma hrm⟩
    · obtain ⟨v, ma₁⟩ := q
      have hname : name ∈ ma.map Prod.fst := by
        by_contra habs
        rw [← mapRemove_eq_none_iff name ma] at habs
        rw [habs] at hrm
        exact Option.noConfusion hrm
      obtain ⟨n, hn, hnabs⟩ := h
      rcases List.mem_cons.mp hn with rfl | hn'
      · exact absurd hname hnabs
      · have hnabs₁ : n ∉ ma₁.map Prod.fst := fun hmem =>
          hnabs ((mapRemove_keys_sublist name v ma ma₁ hrm).mem hmem)
        obtain ⟨m, hm, hra⟩ := ih ma₁ ⟨n, hn', hnabs₁⟩
        refine ⟨m, List.mem_cons_of_mem _ hm, ?_⟩
        rw [removeArgs_cons_some name rest ma ma₁ v hrm, hra]

/-- When the schema names are distinct, the map's keys are distinct, and every
schema name is present, the removal loop succeeds, collects the values in schema
order, and leaves exactly the entries whose keys are not schema names. -/
theorem removeArgs_ok_of_all_present :
    ∀ (names : List String) (ma : List (String × Value)),
      names.Nodup → (ma.map Prod.fst).Nodup → (∀ n ∈ names, n ∈ ma.map Prod.fst) →
      removeArgs names ma =
        .ok (names.filterMap (fun n => mapLookup n ma),
          ma.filter (fun p => decide (p.1 ∉ names))) := by
  intro names
  induction names with
  | nil => intro ma _ _ _; simp [removeArgs]
  | cons name rest ih =>
    intro ma hn hk hall
    have hname : name ∈ ma.map Prod.fst := hall name (by simp)
    rcases hrm : mapRemove name ma with _ | q
    · rw [mapRemove_eq_none_iff] at hrm
      exact absurd hname hrm
    · obtain ⟨v, ma₁⟩ := q
      obtain ⟨pre, post, hma, hma₁, hpre⟩ := mapRemove_some_decomp name v ma ma₁ hrm
      have hnamerest : name ∉ rest := (List.nodup_cons.mp hn).1
      have hrestnodup : rest.Nodup := (List.nodup_cons.mp hn).2
      have hk₁ : (ma₁.map Prod.fst).Nodup :=
        hk.sublist (mapRemove_keys_sublist name v ma ma₁ hrm)
      have hpost : name ∉ post.map Prod.fst := by
        rw [hma] at hk
        simp only [List.map_append, List.map_cons, List.nodup_append, List.nodup_cons] at hk
        exact hk.2.1.1
      have hall₁ : ∀ n ∈ rest, n ∈ ma₁.map Prod.fst := by
        intro n hnr
        have hne : n ≠ name := fun hEq => hnamerest (hEq ▸ hnr)
        have hmem : n ∈ ma.map Prod.fst := hall n (List.mem_cons_of_mem _ hnr)
        rw [hma] at hmem
        rw [hma₁]
        simp only [List.map_append, List.map_cons, List.mem_append, List.mem_cons] at hmem ⊢
        rcases hmem with h1 | h2 | h3
        · exact Or.inl h1
        · exact absurd h2 hne
        · exact Or.inr h3
      have hrec := ih ma₁ hrestnodup hk₁ hall₁
      have hvals : rest.filterMap (fun n => mapLookup n ma₁) =
          rest.filterMap (fun n => mapLookup n ma) := by
        apply List.filterMap_congr
        intro n hnr
        exact mapRemove_preserves_other_lookups name v ma ma₁ hrm n
          (fun hEq => hnamerest (hEq ▸ hnr))
      have hleft : ma₁.filter (fun p => decide (p.1 ∉ rest)) =
          ma.filter (fun p => decide (p.1 ∉ name :: rest)) := by
        rw [hma, hma₁]
        rw [List.filter_append, List.filter_append, List.filter_cons]
        have hprecongr : pre.filter (fun p => decide (p.1 ∉ rest)) =
            pre.filter (fun p => decide (p.1 ∉ name :: rest)) := by
          apply List.filter_congr
          intro p hp
          have hpne : p.1 ≠ name := fun hEq => hpre (hEq ▸ List.mem_map_of_mem Prod.fst hp)
          simp [hpne]
        have hpostcongr : post.filter (fun p => decide (p.1 ∉ rest)) =
            post.filter (fun p => decide (p.1 ∉ name :: rest)) := by
          apply List.filter_congr
          intro p hp
          have hpne : p.1 ≠ name := fun hEq => hpost (hEq ▸ List.mem_map_of_mem Prod.fst hp)
          simp [hpne]
        rw [if_neg (by simp)]
        rw [hprecongr, hpostcongr]
      have hlookname : mapLookup name ma = some v := mapRemove_lookup name v ma ma₁ hrm
      rw [removeArgs_cons_some name rest ma ma₁ v hrm, hrec]
      simp only [List.filterMap_cons, hlookname, hvals, hleft]

/-- C7.  Named-parameter binding: a missing schema name fails with
`MissingNamedParameter` naming a schema name; if every schema name is present but
residual keys remain, binding fails with `ExtraNamedParameter` reporting one
residual key; if every schema name is present and no residual keys remain, binding
succeeds with the values arranged in schema order. -/
theorem c7_named_parameter_binding (names : List String) (ma : List (String × Value))
    (hn : names.Nodup) (hk : (ma.map Prod.fst).Nodup) :
    ((∃ n ∈ names, n ∉ ma.map Prod.fst) →
      ∃ n ∈ names, get_rpc_args names (Params.map ma) =
        .error (.MissingNamedParameter n)) ∧
    ((∀ n ∈ names, n ∈ ma.map Prod.fst) → (∃ p ∈ ma, p.1 ∉ names) →
      ∃ k, k ∈ ma.map Prod.fst ∧ k ∉ names ∧
        get_rpc_args names (Params.map ma) = .error (.ExtraNamedParameter k)) ∧
    ((∀ n ∈ names, n ∈ ma.map Prod.fst) → (∀ p ∈ ma, p.1 ∈ names) →
      get_rpc_args names (Params.map ma) =
        .ok (names.filterMap (fun n => mapLookup n ma))) := by
  refine ⟨?_, ?_, ?_⟩
  · intro hmissing
    obtain ⟨n, hnmem, hra⟩ := removeArgs_missing names ma hmissing
    exact ⟨n, hnmem, by rw [get_rpc_args_map_eq, hra]⟩
  · intro hall hextra
    have hra := removeArgs_ok_of_all_present names ma hn hk hall
    obtain ⟨p, hpmem, hpnot⟩ := hextra
    have hpfilter : p ∈ ma.filter (fun q => decide (q.1 ∉ names)) :=
      List.mem_filter.mpr ⟨hpmem, by simpa using hpnot⟩
    rcases hfl : ma.filter (fun q => decide (q.1 ∉ names)) with _ | ⟨q, tail⟩
    · rw [hfl] at hpfilter
      exact absurd hpfilter (List.not_mem_nil p)
    · have hq : q ∈ ma.filter (fun q => decide (q.1 ∉ names)) := by
        rw [hfl]; exact List.mem_cons_self q tail
      have hqma := List.mem_filter.mp hq
      refine ⟨q.1, List.mem_map_of_mem Prod.fst hqma.1, by simpa using hqma.2, ?_⟩
      rw [hfl] at hra
      rw [get_rpc_args_map_eq, hra]
  · intro hall hnone
    have hra := removeArgs_ok_of_all_present names ma hn hk hall
    have hfl : ma.filter (fun q => decide (q.1 ∉ names)) = [] := by
      apply List.filter_eq_nil_iff.mpr
      intro p hp
      simpa using hnone p hp
    rw [hfl] at hra
    have hlen : (names.filterMap (fun n => mapLookup n ma)).length = names.length :=
      removeArgs_length names ma _ _ hra
    rw [get_rpc_args_map_eq, hra]
    simp [hlen]

/-- Witness for C7: the success branch at a two-name schema whose map holds the
names in reverse order — the values come back in schema order. -/
theorem c7_witness :
    get_rpc_args ["a", "b"] (Params.map [("b", Value.num 2), ("a", Value.num 1)]) =
      .ok [Value.num 1, Value.num 2] := by
  have h := (c7_named_parameter_binding ["a", "b"] [("b", Value.num 2), ("a", Value.num 1)]
    (by simp) (by simp)).2.2 (by simp) (by simp)
  simpa [mapLookup] using h

/-- `find?` only depends on the predicate's values on the list. -/
theorem findCongr {α : Type} {p q : α → Bool} :
    ∀ {l : List α}, (∀ x ∈ l, p x = q x) → l.find? p = l.find? q := by
  intro l
  induction l with
  | nil => intro _; rfl
  | cons a l ih =>
    intro h
    have ha : p a = q a := h a (List.mem_cons_self a l)
    by_cases hq : q a = true
    · rw [List.find?_cons_of_pos _ (ha.trans hq), List.find?_cons_of_pos _ hq]
    · have hq' : q a = false := by
        cases hqa : q a
        · rfl
        · exact absurd hqa hq
      rw [List.find?_cons_of_neg _ (by rw [ha, hq']; exact Bool.false_ne_true),
        List.find?_cons_of_neg _ (by rw [hq']; exact Bool.false_ne_true)]
      exact ih (fun x hx => h x (List.mem_cons_of_mem _ hx))

/-- The removal loop fails with the first schema name (in schema order) that is
absent from the map. -/
theorem removeArgs_first_missing :
    ∀ (names : List String) (ma : List (String × Value)),
      names.Nodup → (ma.map Prod.fst).Nodup →
      ∀ n₀, names.find? (fun n => !(decide (n ∈ ma.map Prod.fst))) = some n₀ →
      removeArgs names ma = .error (.MissingNamedParameter n₀) := by
  intro names
  induction names with
  | nil => intro ma _ _ n₀ hfind; exact Option.noConfusion hfind
  | cons name rest ih =>
    intro ma hn hk n₀ hfind
    by_cases habs : name ∈ ma.map Prod.fst
    · rw [List.find?_cons_of_neg _ (by simpa using habs)] at hfind
      rcases hrm : mapRemove name ma with _ | q
      · rw [mapRemove_eq_none_iff] at hrm
        exact absurd habs hrm
      · obtain ⟨v, ma₁⟩ := q
        have hnamerest : name ∉ rest := (List.nodup_cons.mp hn).1
        have hfind₁ : rest.find? (fun n => !(decide (n ∈ ma₁.map Prod.fst))) = some n₀ := by
          rw [← hfind]
          apply findCongr
          intro n hnr
          have hne : n ≠ name := fun hEq => hnamerest (hEq ▸ hnr)
          have hiff : (n ∈ ma₁.map Prod.fst) ↔ (n ∈ ma.map Prod.fst) := by
            obtain ⟨pre, post, hma, hma₁, hpre⟩ := mapRemove_some_decomp name v ma ma₁ hrm
            rw [hma, hma₁]
            simp only [List.map_append, List.map_cons, List.mem_append, List.mem_cons]
            constructor
            · intro h'
              rcases h' with h1 | h2
              · exact Or.inl h1
              · exact Or.inr (Or.inr h2)
            · intro h'
              rcases h' with h1 | h2 | h3
              · exact Or.inl h1
              · exact absurd h2 hne
              · exact Or.inr h3
          rw [decide_eq_decide.mpr hiff]
        have hrec := ih ma₁ (List.nodup_cons.mp hn).2
          (hk.sublist (mapRemove_keys_sublist name v ma ma₁ hrm)) n₀ hfind₁
        rw [removeArgs_cons_some name rest ma ma₁ v hrm, hrec]
    · rw [List.find?_cons_of_pos _ (by simpa using habs)] at hfind
      obtain rfl : name = n₀ := Option.some.inj hfind
      rw [← mapRemove_eq_none_iff] at habs
      exact removeArgs_cons_none name rest ma habs

/-- C10.  When the named payload both lacks a schema name and has extra keys, the
binder reports `MissingNamedParameter` for the first absent schema name (in schema
order), never `ExtraNamedParameter`: residual keys are examined only after every
schema name has been resolved. -/
theorem c10_missing_name_takes_precedence (names : List String)
    (ma : List (String × Value)) (hn : names.Nodup) (hk : (ma.map Prod.fst).Nodup)
    (n₀ : String)
    (hfind : names.find? (fun n => !(decide (n ∈ ma.map Prod.fst))) = some n₀)
    (_hextra : ∃ p ∈ ma, p.1 ∉ names) :
    get_rpc_args names (Params.map ma) = .error (.MissingNamedParameter n₀) := by
  rw [get_rpc_args_map_eq, removeArgs_first_missing names ma hn hk n₀ hfind]

/-- Witness for C10: schema `["a","b"]`, map `{"b": 1, "c": 2}` — `"a"` is missing
and `"c"` is extra; the binder reports the missing name. -/
theorem c10_witness :
    get_rpc_args ["a", "b"] (Params.map [("b", Value.num 1), ("c", Value.num 2)]) =
      .error (.MissingNamedParameter "a") :=
  c10_missing_name_takes_precedence ["a", "b"] [("b", Value.num 1), ("c", Value.num 2)]
    (by simp) (by simp) "a" (by simp)
    ⟨("c", Value.num 2), by simp, by simp⟩

/-! ### Parser correctness: characters and numbers

Supporting lemmas for the render/parse round trip of claim C9. -/

/-- Characters are determined by their code points. -/
theorem charToNat_inj {c d : Char} (h : c.toNat = d.toNat) : c = d :=
  Char.eq_of_val_eq (UInt32.ext h)

/-- `Char.ofNat` inverts `Char.toNat`. -/
theorem charOfNat_toNat (c : Char) : Char.ofNat c.toNat = c := by
  have h : c.toNat.isValidChar := c.valid
  apply charToNat_inj
  unfold Char.ofNat
  rw [dif_pos h]
  rfl

/-- The code point of a rendered decimal digit. -/
theorem toNat_digitChar (d : Nat) (h : d < 10) : (digitChar d).toNat = 48 + d := by
  interval_cases d <;> decide

/-- Rendered decimal digits satisfy the parser's digit test. -/
theorem isDigitC_digitChar (d : Nat) (h : d < 10) : isDigitC (digitChar d) = true := by
  interval_cases d <;> decide

/-- A digit character is not one of the parser's special dispatch characters. -/
theorem digit_not_special (c : Char) (h : isDigitC c = true) :
    isWsC c = false ∧ ∀ d : Char, isDigitC d = false → c ≠ d := by
  have hne : ∀ d : Char, isDigitC d = false → c ≠ d := by
    intro d hd hEq
    subst hEq
    rw [h] at hd
    exact Bool.noConfusion hd
  have hws : isWsC c = false := by
    cases hw : isWsC c with
    | false => rfl
    | true =>
      exfalso
      simp only [isDigitC, Bool.and_eq_true, decide_eq_true_eq] at h
      simp only [isWsC, Bool.or_eq_true, decide_eq_true_eq] at hw
      rcases hw with ((hw | hw) | hw) | hw <;> (subst hw; exact absurd h (by decide))
  exact ⟨hws, hne⟩

/-- Parse input whose first character is not a digit. -/
def notDigitStart : List Char → Prop
  | [] => True
  | c :: _ => isDigitC c = false

/-- `parseDigits` stops at a non-digit boundary. -/
theorem parseDigits_stop (rest : List Char) (acc : Nat) (h : notDigitStart rest) :
    parseDigits rest acc = (acc, rest) := by
  cases rest with
  | nil => rfl
  | cons c cs =>
    have hc : isDigitC c = false := h
    simp [parseDigits, hc]

/-- Running `parseDigits` over a rendered natural number accumulates exactly that
number (with the prior accumulator shifted by the digit count). -/
theorem parseDigits_renderNatAux :
    ∀ f n acc rest, n < f →
      ∃ k, 0 < k ∧
        parseDigits (renderNatAux f n ++ rest) acc = parseDigits rest (acc * 10 ^ k + n) := by
  intro f
  induction f with
  | zero => intro n acc rest h; omega
  | succ f ih =>
    intro n acc rest h
    by_cases h10 : n < 10
    · refine ⟨1, one_pos, ?_⟩
      simp only [renderNatAux, if_pos h10, List.cons_append, List.nil_append]
      rw [show parseDigits (digitChar n :: rest) acc =
          parseDigits rest (acc * 10 + ((digitChar n).toNat - 48)) from by
        simp [parseDigits, isDigitC_digitChar n h10]]
      rw [toNat_digitChar n h10]
      norm_num
    · have hdiv : n / 10 < f := by
        have h1 : n / 10 < n := Nat.div_lt_self (by omega) (by omega)
        omega
      obtain ⟨k, hkpos, hk⟩ := ih (n / 10) acc (digitChar (n % 10) :: rest) hdiv
      refine ⟨k + 1, by omega, ?_⟩
      simp only [renderNatAux, if_neg h10]
      rw [List.append_assoc, List.singleton_append, hk]
      have hm : n % 10 < 10 := Nat.mod_lt _ (by omega)
      rw [show parseDigits (digitChar (n % 10) :: rest) (acc * 10 ^ k + n / 10) =
          parseDigits rest ((acc * 10 ^ k + n / 10) * 10 + ((digitChar (n % 10)).toNat - 48))
        from by simp [parseDigits, isDigitC_digitChar _ hm]]
      rw [toNat_digitChar _ hm]
      congr 1
      have hdm := Nat.div_add_mod n 10
      rw [pow_succ]
      have h48 : 48 + n % 10 - 48 = n % 10 := by omega
      rw [h48]
      ring_nf
      omega

/-- A rendered natural number starts with a digit. -/
theorem renderNatAux_head :
    ∀ f n, n < f → ∃ c cs, renderNatAux f n = c :: cs ∧ isDigitC c = true := by
  intro f
  induction f with
  | zero => intro n h; omega
  | succ f ih =>
    intro n h
    by_cases h10 : n < 10
    · exact ⟨digitChar n, [], by simp [renderNatAux, h10], isDigitC_digitChar n h10⟩
    · have hdiv : n / 10 < f := by
        have h1 : n / 10 < n := Nat.div_lt_self (by omega) (by omega)
        omega
      obtain ⟨c, cs, hc, hcd⟩ := ih (n / 10) hdiv
      exact ⟨c, cs ++ [digitChar (n % 10)],
        by simp only [renderNatAux, if_neg h10, hc]; rfl, hcd⟩

/-- Parsing a rendered integer at a non-digit boundary recovers the integer. -/
theorem parseNumber_renderInt (n : Int) (rest : List Char) (h : notDigitStart rest) :
    parseNumber (renderInt n ++ rest) = some (n, rest) := by
  cases n with
  | ofNat m =>
    obtain ⟨c, cs, hc, hcd⟩ := renderNatAux_head (m + 1) m (by omega)
    have hspec := digit_not_special c hcd
    have hsplit : renderInt (Int.ofNat m) ++ rest = c :: (cs ++ rest) := by
      simp only [renderInt, renderNat, hc]
      rfl
    rw [hsplit]
    rw [show parseNumber (c :: (cs ++ rest)) =
        some (((parseDigits (c :: (cs ++ rest)) 0).1 : Int),
          (parseDigits (c :: (cs ++ rest)) 0).2) from by
      simp [parseNumber, hspec.2 '-' (by decide), hcd]]
    have hback : c :: (cs ++ rest) = renderNatAux (m + 1) m ++ rest := by
      rw [hc]; rfl
    rw [hback]
    obtain ⟨k, _, hk⟩ := parseDigits_renderNatAux (m + 1) m 0 rest (by omega)
    rw [hk, parseDigits_stop rest _ h]
    simp
  | negSucc m =>
    obtain ⟨c, cs, hc, hcd⟩ := renderNatAux_head (m + 2) (m + 1) (by omega)
    have hsplit : renderInt (Int.negSucc m) ++ rest = '-' :: (renderNat (m + 1) ++ rest) := by
      simp [renderInt]
    rw [hsplit]
    have hhead : renderNat (m + 1) ++ rest = c :: (cs ++ rest) := by
      simp only [renderNat, hc]
      rfl
    rw [show parseNumber ('-' :: (renderNat (m + 1) ++ rest)) =
        (match renderNat (m + 1) ++ rest with
         | [] => Option.none
         | d :: _ =>
             if isDigitC d then
               let p := parseDigits (renderNat (m + 1) ++ rest) 0
               some (-(p.1 : Int), p.2)
             else Option.none) from by
      simp [parseNumber]]
    rw [hhead]
    simp only [hcd, if_pos]
    obtain ⟨k, _, hk⟩ := parseDigits_renderNatAux (m + 2) (m + 1) 0 rest (by omega)
    rw [show c :: (cs ++ rest) = renderNatAux (m + 2) (m + 1) ++ rest from by rw [hc]; rfl]
    rw [hk, parseDigits_stop rest _ h]
    simp only [zero_mul, zero_add, Option.some.injEq, Prod.mk.injEq]
    refine ⟨?_, trivial⟩
    rw [Int.negSucc_eq]
    push_cast
    ring

/-! ### Parser correctness: strings -/

/-- Rendered hexadecimal digits satisfy the parser's hex test. -/
theorem isHexDigitC_hexChar (d : Nat) (h : d < 16) :
    isHexDigitC (hexChar d) = true := by
  interval_cases d <;> decide

/-- `hexValC` inverts `hexChar`. -/
theorem hexValC_hexChar (d : Nat) (h : d < 16) : hexValC (hexChar d) = d := by
  interval_cases d <;> decide

/-- Equation lemma: the closing quote ends the string body. -/
theorem parseStringBody_quote (rest : List Char) :
    parseStringBody ('"' :: rest) = some ([], rest) := by
  conv_lhs => unfold parseStringBody
  rfl

/-- Equation lemma: the escaped quote. -/
theorem parseStringBody_esc_quote (T : List Char) :
    parseStringBody ('\\' :: '"' :: T) =
      (parseStringBody T).map (fun p => ('"' :: p.1, p.2)) := by
  conv_lhs => unfold parseStringBody
  rfl

/-- Equation lemma: the escaped backslash. -/
theorem parseStringBody_esc_backslash (T : List Char) :
    parseStringBody ('\\' :: '\\' :: T) =
      (parseStringBody T).map (fun p => ('\\' :: p.1, p.2)) := by
  conv_lhs => unfold parseStringBody
  rfl

/-- Equation lemma: the `\b` escape. -/
theorem parseStringBody_esc_b (T : List Char) :
    parseStringBody ('\\' :: 'b' :: T) =
      (parseStringBody T).map (fun p => ('\x08' :: p.1, p.2)) := by
  conv_lhs => unfold parseStringBody
  rfl

/-- Equation lemma: the `\t` escape. -/
theorem parseStringBody_esc_t (T : List Char) :
    parseStringBody ('\\' :: 't' :: T) =
      (parseStringBody T).map (fun p => ('\x09' :: p.1, p.2)) := by
  conv_lhs => unfold parseStringBody
  rfl

/-- Equation lemma: the `\n` escape. -/
theorem parseStringBody_esc_n (T : List Char) :
    parseStringBody ('\\' :: 'n' :: T) =
      (parseStringBody T).map (fun p => ('\x0a' :: p.1, p.2)) := by
  conv_lhs => unfold parseStringBody
  rfl

/-- Equation lemma: the `\f` escape. -/
theorem parseStringBody_esc_f (T : List Char) :
    parseStringBody ('\\' :: 'f' :: T) =
      (parseStringBody T).map (fun p => ('\x0c' :: p.1, p.2)) := by
  conv_lhs => unfold parseStringBody
  rfl

/-- Equation lemma: the `\r` escape. -/
theorem parseStringBody_esc_r (T : List Char) :
    parseStringBody ('\\' :: 'r' :: T) =
      (parseStringBody T).map (fun p => ('\x0d' :: p.1, p.2)) := by
  conv_lhs => unfold parseStringBody
  rfl

/-- Equation lemma: a `\u00XX` escape with valid hex digits and a valid resulting
code point. -/
theorem parseStringBody_esc_u (h3 h4 : Char) (T : List Char)
    (hh3 : isHexDigitC h3 = true) (hh4 : isHexDigitC h4 = true)
    (hv : (hexValC '0' * 4096 + hexValC '0' * 256 +
      hexValC h3 * 16 + hexValC h4).isValidChar) :
    parseStringBody ('\\' :: 'u' :: '0' :: '0' :: h3 :: h4 :: T) =
      (parseStringBody T).map (fun p =>
        (Char.ofNat (hexValC '0' * 4096 + hexValC '0' * 256 +
          hexValC h3 * 16 + hexValC h4) :: p.1, p.2)) := by
  conv_lhs => unfold parseStringBody
  simp [show isHexDigitC '0' = true from by decide, hh3, hh4, hv]

/-- Equation lemma: an unescaped non-control character. -/
theorem parseStringBody_plain (c : Char) (T : List Char) (hq : ¬c = '"')
    (hb : ¬c = '\\') (hctl : ¬c.toNat < 32) :
    parseStringBody (c :: T) = (parseStringBody T).map (fun p => (c :: p.1, p.2)) := by
  conv_lhs => unfold parseStringBody
  rw [if_neg hq, if_neg hb, if_neg hctl]

/-- Parsing the escaped rendering of a string body up to the closing quote recovers
the original characters and leaves the rest untouched. -/
theorem parseStringBody_render :
    ∀ (cs : List Char) (rest : List Char),
      parseStringBody (cs.flatMap escChar ++ '"' :: rest) = some (cs, rest) := by
  intro cs
  induction cs with
  | nil => intro rest; exact parseStringBody_quote rest
  | cons c cs ih =>
    intro rest
    rw [List.flatMap_cons, List.append_assoc]
    by_cases hq : c = '"'
    · subst hq
      rw [show escChar '"' = ['\\', '"'] from by decide]
      rw [List.cons_append, List.cons_append, List.nil_append,
        parseStringBody_esc_quote, ih rest]
      rfl
    · by_cases hb : c = '\\'
      · subst hb
        rw [show escChar '\\' = ['\\', '\\'] from by decide]
        rw [List.cons_append, List.cons_append, List.nil_append,
          parseStringBody_esc_backslash, ih rest]
        rfl
      · by_cases h8 : c = '\x08'
        · subst h8
          rw [show escChar '\x08' = ['\\', 'b'] from by decide]
          rw [List.cons_append, List.cons_append, List.nil_append,
            parseStringBody_esc_b, ih rest]
          rfl
        · by_cases h9 : c = '\x09'
          · subst h9
            rw [show escChar '\x09' = ['\\', 't'] from by decide]
            rw [List.cons_append, List.cons_append, List.nil_append,
              parseStringBody_esc_t, ih rest]
            rfl
          · by_cases hA : c = '\x0a'
            · subst hA
              rw [show escChar '\x0a' = ['\\', 'n'] from by decide]
              rw [List.cons_append, List.cons_append, List.nil_append,
                parseStringBody_esc_n, ih rest]
              rfl
            · by_cases hC : c = '\x0c'
              · subst hC
                rw [show escChar '\x0c' = ['\\', 'f'] from by decide]
                rw [List.cons_append, List.cons_append, List.nil_append,
                  parseStringBody_esc_f, ih rest]
                rfl
              · by_cases hD : c = '\x0d'
                · subst hD
                  rw [show escChar '\x0d' = ['\\', 'r'] from by decide]
                  rw [List.cons_append, List.cons_append, List.nil_append,
                    parseStringBody_esc_r, ih rest]
                  rfl
                · by_cases hctl : c.toNat < 32
                  · rw [show escChar c =
                        '\\' :: 'u' :: '0' :: '0' :: hexChar (c.toNat / 16) ::
                          hexChar (c.toNat % 16) :: [] from by
                      simp [escChar, hq, hb, h8, h9, hA, hC, hD, hctl]]
                    have hd3 : c.toNat / 16 < 16 := by omega
                    have hd4 : c.toNat % 16 < 16 := by omega
                    have hval : (hexValC '0' * 4096 + hexValC '0' * 256 +
                        hexValC (hexChar (c.toNat / 16)) * 16 +
                        hexValC (hexChar (c.toNat % 16))) = c.toNat := by
                      rw [hexValC_hexChar _ hd3, hexValC_hexChar _ hd4]
                      rw [show hexValC '0' = 0 from by decide]
                      omega
                    simp only [List.cons_append, List.nil_append]
                    rw [parseStringBody_esc_u _ _ _
                      (isHexDigitC_hexChar _ hd3) (isHexDigitC_hexChar _ hd4)
                      (by rw [hval]; exact Or.inl (by omega)), ih rest]
                    simp only [Option.map_some', Option.some.injEq, Prod.mk.injEq]
                    rw [hval, charOfNat_toNat c]
                    exact ⟨rfl, trivial⟩
                  · rw [show escChar c = [c] from by
                      simp [escChar, hq, hb, h8, h9, hA, hC, hD, hctl]]
                    rw [List.cons_append, List.nil_append,
                      parseStringBody_plain c _ hq hb hctl, ih rest]
                    rfl


/-- Skipping whitespace is a no-op on a non-whitespace head. -/
theorem skipWs_not_ws (c : Char) (r : List Char) (h : isWsC c = false) :
    skipWs (c :: r) = c :: r := by
  simp [skipWs, h]

/-- Delimiters that may legally follow a rendered JSON value. -/
def delim : List Char → Prop
  | [] => True
  | c :: _ => c = ',' ∨ c = ']' ∨ c = '}'

/-- A delimiter boundary never starts with a digit. -/
theorem delim_notDigitStart (rest : List Char) (h : delim rest) : notDigitStart rest := by
  cases rest with
  | nil => trivial
  | cons c cs =>
    rcases h with rfl | rfl | rfl
    · exact (by decide : isDigitC ',' = false)
    · exact (by decide : isDigitC ']' = false)
    · exact (by decide : isDigitC '}' = false)

/-- Every value has positive structural size. -/
theorem vsize_pos (v : Value) : 1 ≤ vsize v := by
  cases v <;> simp [vsize]

/-- Nonempty element lists have positive structural size. -/
theorem vsizeElems_cons (x : Value) (xs : List Value) :
    vsizeElems (x :: xs) = 1 + vsize x + vsizeElems xs := by
  simp [vsizeElems]

/-- Nonempty field lists have positive structural size. -/
theorem vsizeFields_cons (k : String) (v : Value) (fs : List (String × Value)) :
    vsizeFields ((k, v) :: fs) = 1 + vsize v + vsizeFields fs := by
  simp [vsizeFields]

/-- Equation lemma: rendering a single array element. -/
theorem renderElems_single (x : Value) : renderElems [x] = renderValue x := by
  conv_lhs => unfold renderElems

/-- Equation lemma: rendering two or more array elements. -/
theorem renderElems_pair (x y : Value) (tl : List Value) :
    renderElems (x :: y :: tl) = renderValue x ++ ',' :: renderElems (y :: tl) := by
  conv_lhs => unfold renderElems

/-- Equation lemma: rendering a single object field. -/
theorem renderFields_single (k : String) (v : Value) :
    renderFields [(k, v)] = renderString k.data ++ ':' :: renderValue v := by
  conv_lhs => unfold renderFields

/-- Equation lemma: rendering two or more object fields. -/
theorem renderFields_pair (k : String) (v : Value) (q : String × Value)
    (tl : List (String × Value)) :
    renderFields ((k, v) :: q :: tl) =
      renderString k.data ++ ':' :: renderValue v ++ ',' :: renderFields (q :: tl) := by
  conv_lhs => unfold renderFields

/-- A character that may legally start a rendered value: not whitespace and not a
closing bracket. -/
abbrev headOk (c : Char) : Prop := isWsC c = false ∧ c ≠ ']' ∧ c ≠ '}'

/-- A rendered value starts with a non-whitespace character that is not a
closing bracket. -/
theorem renderValue_head (v : Value) :
    ∃ c cs, renderValue v = c :: cs ∧ headOk c := by
  cases v with
  | null => exact ⟨'n', _, rfl, by decide⟩
  | bool b =>
    cases b with
    | true => exact ⟨'t', _, rfl, by decide⟩
    | false => exact ⟨'f', _, rfl, by decide⟩
  | num n =>
    cases n with
    | ofNat m =>
      obtain ⟨c, cs, hc, hcd⟩ := renderNatAux_head (m + 1) m (by omega)
      have hspec := digit_not_special c hcd
      exact ⟨c, cs, by simp [renderValue, renderInt, renderNat, hc], hspec.1,
        hspec.2 ']' (by decide), hspec.2 '}' (by decide)⟩
    | negSucc m =>
      exact ⟨'-', renderNat (m + 1), by simp [renderValue, renderInt], by decide⟩
  | str s =>
    exact ⟨'"', s.data.flatMap escChar ++ ['"'], by simp [renderValue, renderString],
      by decide⟩
  | arr xs =>
    exact ⟨'[', renderElems xs ++ [']'], by simp [renderValue], by decide⟩
  | obj fs =>
    exact ⟨'{', renderFields fs ++ ['}'], by simp [renderValue], by decide⟩

/-- The joint render/parse round-trip, by strong induction on a structural-size
bound: parsing the rendering of a value (or of a nonempty element/field list up to
its closing bracket) at any delimiter boundary succeeds and consumes exactly the
rendering. -/
theorem parse_render_bounded :
    ∀ N : Nat,
      (∀ v : Value, vsize v ≤ N → ∀ fuel rest, vsize v ≤ fuel → delim rest →
        parseValue fuel (renderValue v ++ rest) = some (v, rest)) ∧
      (∀ xs : List Value, xs ≠ [] → vsizeElems xs ≤ N →
        ∀ fuel rest, vsizeElems xs ≤ fuel → delim rest →
        parseElems fuel (renderElems xs ++ ']' :: rest) = some (xs, rest)) ∧
      (∀ fs : List (String × Value), fs ≠ [] → vsizeFields fs ≤ N →
        ∀ fuel rest, vsizeFields fs ≤ fuel → delim rest →
        parseFields fuel (renderFields fs ++ '}' :: rest) = some (fs, rest)) := by
  intro N
  induction N using Nat.strong_induction_on with
  | _ N IH =>
  refine ⟨?_, ?_, ?_⟩
  · -- values
    intro v hvN fuel rest hvf hdelim
    have hpos := vsize_pos v
    cases fuel with
    | zero => omega
    | succ f =>
    cases v with
    | null =>
      conv_lhs => unfold parseValue
      simp [renderValue, skipWs, isWsC, expectChars]
    | bool b =>
      cases b with
      | true =>
        conv_lhs => unfold parseValue
        simp [renderValue, skipWs, isWsC, expectChars]
      | false =>
        conv_lhs => unfold parseValue
        simp [renderValue, skipWs, isWsC, expectChars]
    | num n =>
      have hnd : notDigitStart rest := delim_notDigitStart rest hdelim
      conv_lhs => unfold parseValue
      cases n with
      | ofNat m =>
        obtain ⟨c, cs, hc, hcd⟩ := renderNatAux_head (m + 1) m (by omega)
        have hspec := digit_not_special c hcd
        rw [show renderValue (Value.num (Int.ofNat m)) ++ rest = c :: (cs ++ rest) from by
          simp [renderValue, renderInt, renderNat, hc]]
        rw [skipWs_not_ws _ _ hspec.1]
        simp only []
        rw [if_neg (hspec.2 'n' (by decide)), if_neg (hspec.2 't' (by decide)),
          if_neg (hspec.2 'f' (by decide)), if_neg (hspec.2 '"' (by decide)),
          if_neg (hspec.2 '[' (by decide)), if_neg (hspec.2 '{' (by decide)),
          if_pos (by simp [hcd])]
        rw [show c :: (cs ++ rest) = renderInt (Int.ofNat m) ++ rest from by
          simp [renderInt, renderNat, hc]]
        rw [parseNumber_renderInt _ _ hnd]
        rfl
      | negSucc m =>
        rw [show renderValue (Value.num (Int.negSucc m)) ++ rest =
            '-' :: (renderNat (m + 1) ++ rest) from by simp [renderValue, renderInt]]
        rw [skipWs_not_ws _ _ (by decide)]
        simp only []
        rw [if_neg (by decide), if_neg (by decide), if_neg (by decide),
          if_neg (by decide), if_neg (by decide), if_neg (by decide),
          if_pos (by simp)]
        rw [show '-' :: (renderNat (m + 1) ++ rest) =
            renderInt (Int.negSucc m) ++ rest from by simp [renderInt]]
        rw [parseNumber_renderInt _ _ hnd]
        rfl
    | str s =>
      obtain ⟨data⟩ := s
      conv_lhs => unfold parseValue
      rw [show renderValue (Value.str ⟨data⟩) ++ rest =
          '"' :: (data.flatMap escChar ++ '"' :: rest) from by
        simp [renderValue, renderString]]
      rw [skipWs_not_ws _ _ (by decide)]
      simp [parseStringBody_render]
    | arr xs =>
      conv_lhs => unfold parseValue
      rw [show renderValue (Value.arr xs) ++ rest =
          '[' :: (renderElems xs ++ ']' :: rest) from by simp [renderValue]]
      rw [skipWs_not_ws _ _ (by decide)]
      simp only []
      rw [if_neg (by decide), if_neg (by decide), if_neg (by decide), if_neg (by decide),
        if_pos (by trivial)]
      rcases xs with _ | ⟨x, tail⟩
      · rw [show renderElems [] ++ ']' :: rest = ']' :: rest from by simp [renderElems]]
        rw [skipWs_not_ws _ _ (by decide)]
        rfl
      · obtain ⟨c, cs, hc, hok⟩ := renderValue_head x
        obtain ⟨hws, hne, -⟩ := hok
        have hhead : ∃ t, renderElems (x :: tail) ++ ']' :: rest = c :: t := by
          rcases tail with _ | ⟨y, tl⟩
          · rw [renderElems_single, hc]
            exact ⟨_, rfl⟩
          · rw [renderElems_pair, hc]
            exact ⟨_, rfl⟩
        obtain ⟨t, ht⟩ := hhead
        have hsz : vsizeElems (x :: tail) ≤ N - 1 := by
          have : vsize (Value.arr (x :: tail)) = 1 + vsizeElems (x :: tail) := by
            simp [vsize]
          omega
        have hszf : vsizeElems (x :: tail) ≤ f := by
          have : vsize (Value.arr (x :: tail)) = 1 + vsizeElems (x :: tail) := by
            simp [vsize]
          omega
        have hQ := (IH (N - 1) (by omega)).2.1 (x :: tail) (by simp) hsz f rest hszf hdelim
        have hskip2 : skipWs (renderElems (x :: tail) ++ ']' :: rest) = c :: t := by
          rw [ht, skipWs_not_ws _ _ hws]
        rw [hskip2]
        split
        · rename_i r' heq
          exact absurd (List.head_eq_of_cons_eq heq) hne
        · rw [hQ]
          rfl
    | obj fs =>
      conv_lhs => unfold parseValue
      rw [show renderValue (Value.obj fs) ++ rest =
          '{' :: (renderFields fs ++ '}' :: rest) from by simp [renderValue]]
      rw [skipWs_not_ws _ _ (by decide)]
      simp only []
      rw [if_neg (by decide), if_neg (by decide), if_neg (by decide), if_neg (by decide),
        if_neg (by decide), if_pos (by trivial)]
      rcases fs with _ | ⟨⟨k, v⟩, tail⟩
      · rw [show renderFields [] ++ '}' :: rest = '}' :: rest from by simp [renderFields]]
        rw [skipWs_not_ws _ _ (by decide)]
        rfl
      · have hhead : ∃ t, renderFields ((k, v) :: tail) = '"' :: t := by
          rcases tail with _ | ⟨q, tl⟩
          · rw [renderFields_single]
            exact ⟨k.data.flatMap escChar ++ '"' :: ':' :: renderValue v,
              by simp [renderString]⟩
          · rw [renderFields_pair]
            exact ⟨k.data.flatMap escChar ++ '"' :: ':' ::
              (renderValue v ++ ',' :: renderFields (q :: tl)), by simp [renderString]⟩
        obtain ⟨t, ht⟩ := hhead
        have hsz : vsizeFields ((k, v) :: tail) ≤ N - 1 := by
          have : vsize (Value.obj ((k, v) :: tail)) = 1 + vsizeFields ((k, v) :: tail) := by
            simp [vsize]
          omega
        have hszf : vsizeFields ((k, v) :: tail) ≤ f := by
          have : vsize (Value.obj ((k, v) :: tail)) = 1 + vsizeFields ((k, v) :: tail) := by
            simp [vsize]
          omega
        have hR := (IH (N - 1) (by omega)).2.2 ((k, v) :: tail) (by simp) hsz f rest hszf
          hdelim
        rw [show renderFields ((k, v) :: tail) ++ '}' :: rest =
            '"' :: (t ++ '}' :: rest) from by rw [ht]; rfl]
        rw [skipWs_not_ws _ _ (by decide)]
        split
        · rename_i r' heq
          exact absurd (List.head_eq_of_cons_eq heq) (by decide)
        · rw [show '"' :: (t ++ '}' :: rest) = renderFields ((k, v) :: tail) ++ '}' :: rest
            from by rw [ht]; rfl]
          rw [hR]
          rfl
  · -- array elements
    intro xs hne hN fuel rest hfuel hdelim
    rcases xs with _ | ⟨x, tail⟩
    · exact absurd rfl hne
    rw [vsizeElems_cons] at hN hfuel
    have hvx := vsize_pos x
    cases fuel with
    | zero => omega
    | succ f =>
    conv_lhs => unfold parseElems
    rcases tail with _ | ⟨y, tl⟩
    · rw [show renderElems [x] ++ ']' :: rest = renderValue x ++ ']' :: rest from by
        rw [renderElems_single]]
      have hP := (IH (N - 1) (by omega)).1 x (by omega) f (']' :: rest) (by omega)
        (by exact Or.inr (Or.inl rfl))
      rw [hP]
      simp only []
      rw [skipWs_not_ws _ _ (by decide)]
      rfl
    · rw [show renderElems (x :: y :: tl) ++ ']' :: rest =
          renderValue x ++ (',' :: (renderElems (y :: tl) ++ ']' :: rest)) from by
        rw [renderElems_pair]
        simp]
      have hP := (IH (N - 1) (by omega)).1 x (by omega) f
        (',' :: (renderElems (y :: tl) ++ ']' :: rest)) (by omega) (Or.inl rfl)
      rw [hP]
      simp only []
      rw [skipWs_not_ws _ _ (by decide)]
      have hQ := (IH (N - 1) (by omega)).2.1 (y :: tl) (by simp)
        (by rw [vsizeElems_cons] at hN ⊢; omega) f rest
        (by rw [vsizeElems_cons] at hfuel ⊢; omega) hdelim
      show Option.map (fun p => (x :: p.1, p.2))
        (parseElems f (renderElems (y :: tl) ++ ']' :: rest)) = some (x :: y :: tl, rest)
      rw [hQ]
      rfl
  · -- object fields
    intro fs hne hN fuel rest hfuel hdelim
    rcases fs with _ | ⟨⟨k, v⟩, tail⟩
    · exact absurd rfl hne
    rw [vsizeFields_cons] at hN hfuel
    have hvv := vsize_pos v
    cases fuel with
    | zero => omega
    | succ f =>
    conv_lhs => unfold parseFields
    obtain ⟨kdata⟩ := k
    rcases tail with _ | ⟨q, tl⟩
    · rw [show renderFields [(⟨kdata⟩, v)] ++ '}' :: rest =
          '"' :: (kdata.flatMap escChar ++ '"' :: (':' :: (renderValue v ++ '}' :: rest)))
          from by
        rw [renderFields_single]
        simp [renderString]]
      rw [skipWs_not_ws _ _ (by decide)]
      simp only []
      rw [parseStringBody_render]
      simp only []
      rw [skipWs_not_ws _ _ (by decide)]
      simp only []
      have hP := (IH (N - 1) (by omega)).1 v (by omega) f ('}' :: rest) (by omega)
        (Or.inr (Or.inr rfl))
      rw [hP]
      simp only []
      rw [skipWs_not_ws _ _ (by decide)]
      rfl
    · rw [show renderFields ((⟨kdata⟩, v) :: q :: tl) ++ '}' :: rest =
          '"' :: (kdata.flatMap escChar ++ '"' :: (':' :: (renderValue v ++
            (',' :: (renderFields (q :: tl) ++ '}' :: rest))))) from by
        rw [renderFields_pair]
        simp [renderString]]
      rw [skipWs_not_ws _ _ (by decide)]
      simp only []
      rw [parseStringBody_render]
      simp only []
      rw [skipWs_not_ws _ _ (by decide)]
      simp only []
      have hP := (IH (N - 1) (by omega)).1 v (by omega) f
        (',' :: (renderFields (q :: tl) ++ '}' :: rest)) (by omega) (Or.inl rfl)
      rw [hP]
      simp only []
      rw [skipWs_not_ws _ _ (by decide)]
      have hR := (IH (N - 1) (by omega)).2.2 (q :: tl) (by simp)
        (by obtain ⟨qk, qv⟩ := q; rw [vsizeFields_cons] at hN ⊢; omega) f rest
        (by obtain ⟨qk, qv⟩ := q; rw [vsizeFields_cons] at hfuel ⊢; omega) hdelim
      show Option.map (fun p => ((String.mk kdata, v) :: p.1, p.2))
        (parseFields f (renderFields (q :: tl) ++ '}' :: rest)) = some ((⟨kdata⟩, v) :: q :: tl, rest)
      rw [hR]
      rfl


/-- Structural size is bounded by rendered length (with one slack unit for the
bracket in the element/field cases), so `length + 1` fuel always suffices. -/
theorem vsize_le_render_bounded :
    ∀ N : Nat,
      (∀ v : Value, vsize v ≤ N → vsize v ≤ (renderValue v).length) ∧
      (∀ xs : List Value, vsizeElems xs ≤ N →
        vsizeElems xs ≤ (renderElems xs).length + 1) ∧
      (∀ fs : List (String × Value), vsizeFields fs ≤ N →
        vsizeFields fs ≤ (renderFields fs).length + 1) := by
  intro N
  induction N using Nat.strong_induction_on with
  | _ N IH =>
  refine ⟨?_, ?_, ?_⟩
  · intro v hvN
    cases v with
    | null => simp [vsize, renderValue]
    | bool b => cases b <;> simp [vsize, renderValue]
    | num n =>
      cases n with
      | ofNat m =>
        obtain ⟨c, cs, hc, _⟩ := renderNatAux_head (m + 1) m (by omega)
        simp [vsize, renderValue, renderInt, renderNat, hc]
      | negSucc m =>
        simp [vsize, renderValue, renderInt]
    | str s => simp [vsize, renderValue, renderString]
    | arr xs =>
      have hpos := vsize_pos (Value.arr xs)
      have hx : vsizeElems xs ≤ N - 1 := by
        have : vsize (Value.arr xs) = 1 + vsizeElems xs := by simp [vsize]
        omega
      have hIH := (IH (N - 1) (by omega)).2.1 xs hx
      have : vsize (Value.arr xs) = 1 + vsizeElems xs := by simp [vsize]
      have hlen : (renderValue (Value.arr xs)).length = (renderElems xs).length + 2 := by
        simp [renderValue]
      omega
    | obj fs =>
      have hpos := vsize_pos (Value.obj fs)
      have hx : vsizeFields fs ≤ N - 1 := by
        have : vsize (Value.obj fs) = 1 + vsizeFields fs := by simp [vsize]
        omega
      have hIH := (IH (N - 1) (by omega)).2.2 fs hx
      have : vsize (Value.obj fs) = 1 + vsizeFields fs := by simp [vsize]
      have hlen : (renderValue (Value.obj fs)).length = (renderFields fs).length + 2 := by
        simp [renderValue]
      omega
  · intro xs hN
    rcases xs with _ | ⟨x, tail⟩
    · simp [vsizeElems]
    rw [vsizeElems_cons] at hN ⊢
    have hvx := vsize_pos x
    have hxle : vsize x ≤ N - 1 := by omega
    have hIHx := (IH (N - 1) (by omega)).1 x hxle
    rcases tail with _ | ⟨y, tl⟩
    · rw [renderElems_single]
      simp [vsizeElems]
      omega
    · have htle : vsizeElems (y :: tl) ≤ N - 1 := by
        rw [vsizeElems_cons] at hN ⊢
        have := vsize_pos y
        omega
      have hIHt := (IH (N - 1) (by omega)).2.1 (y :: tl) htle
      rw [renderElems_pair]
      simp only [List.length_append, List.length_cons]
      omega
  · intro fs hN
    rcases fs with _ | ⟨⟨k, v⟩, tail⟩
    · simp [vsizeFields]
    rw [vsizeFields_cons] at hN ⊢
    have hvv := vsize_pos v
    have hvle : vsize v ≤ N - 1 := by omega
    have hIHv := (IH (N - 1) (by omega)).1 v hvle
    rcases tail with _ | ⟨q, tl⟩
    · rw [renderFields_single]
      simp only [List.length_append, List.length_cons, vsizeFields]
      omega
    · have htle : vsizeFields (q :: tl) ≤ N - 1 := by
        obtain ⟨qk, qv⟩ := q
        rw [vsizeFields_cons] at hN ⊢
        have := vsize_pos qv
        omega
      have hIHt := (IH (N - 1) (by omega)).2.2 (q :: tl) htle
      rw [renderFields_pair]
      simp only [List.length_append, List.length_cons]
      omega

/-- Parsing the full rendering of a value from text recovers the value. -/
theorem parseValueText_render (v : Value) :
    parseValueText (String.mk (renderValue v)) = some v := by
  have hlen : vsize v ≤ (renderValue v).length :=
    (vsize_le_render_bounded (vsize v)).1 v le_rfl
  have h := (parse_render_bounded (vsize v)).1 v le_rfl ((renderValue v).length + 1) []
    (by omega) trivial
  rw [List.append_nil] at h
  unfold parseValueText
  rw [show (String.mk (renderValue v)).data = renderValue v from rfl]
  rw [h]
  rfl


/-! ### Decoding inverts encoding (up to serde normalization) -/

/-- The normalization `serde` deserialization applies to an error object: the
numeric code is re-classified (standard codes map to their named variants) and a
literal `null` in the `data` member collapses to an absent `data`. -/
def canonError (e : Error) : Error :=
  { code := ErrorCode.ofCode e.code.code, message := e.message,
    data := match e.data with
            | some .null => Option.none
            | d => d }

/-- The normalization applied to an output unit. -/
def canonOutput : Output → Output
  | .success s => .success s
  | .failure f => .failure { jsonrpc := f.jsonrpc, error := canonError f.error, id := f.id }

/-- The normalization applied to a response envelope. -/
def canonResponse : Response → Response
  | .single o => .single (canonOutput o)
  | .batch os => .batch (os.map canonOutput)

/-- Re-classifying an error code preserves its numeric value. -/
theorem code_ofCode (n : Int) : (ErrorCode.ofCode n).code = n := by
  unfold ErrorCode.ofCode
  split_ifs with h1 h2 h3 h4 h5 <;> simp [ErrorCode.code, *]

/-- `Id` deserialization inverts serialization. -/
theorem idRoundtrip (i : Id) : Id.fromValue i.toValue = some i := by
  cases i with
  | null => rfl
  | num n => simp [Id.toValue, Id.fromValue]
  | str s => rfl

/-- `Error` deserialization inverts serialization up to normalization. -/
theorem errorRoundtrip (e : Error) :
    Error.fromValue e.toValue = some (canonError e) := by
  obtain ⟨code, message, data⟩ := e
  rcases data with _ | d
  · simp [Error.toValue, Error.fromValue, fieldsOk, mapLookup, canonError]
  · rcases d <;>
      simp [Error.toValue, Error.fromValue, fieldsOk, mapLookup, canonError]

/-- `Output` deserialization inverts serialization up to normalization. -/
theorem outputRoundtrip (o : Output) :
    Output.fromValue o.toValue = some (canonOutput o) := by
  cases o with
  | success s =>
    obtain ⟨jsonrpc, result, id⟩ := s
    rcases jsonrpc with _ | v
    · simp [Output.toValue, Output.fromValue, Success.fromValue, fieldsOk, mapLookup,
        idRoundtrip, canonOutput]
    · cases v
      simp [Output.toValue, Output.fromValue, Success.fromValue, fieldsOk, mapLookup,
        idRoundtrip, Version.toValue, versionFieldFromValue, canonOutput]
  | failure f =>
    obtain ⟨jsonrpc, error, id⟩ := f
    rcases jsonrpc with _ | v
    · simp [Output.toValue, Output.fromValue, Success.fromValue, Failure.fromValue,
        fieldsOk, mapLookup, idRoundtrip, errorRoundtrip, canonOutput]
    · cases v
      simp [Output.toValue, Output.fromValue, Success.fromValue, Failure.fromValue,
        fieldsOk, mapLookup, idRoundtrip, errorRoundtrip,
        Version.toValue, versionFieldFromValue, canonOutput]

/-- Batch deserialization inverts element-wise serialization. -/
theorem outputsFromValues_map_toValue (os : List Output) :
    outputsFromValues (os.map Output.toValue) = some (os.map canonOutput) := by
  induction os with
  | nil => rfl
  | cons o os ih =>
    simp only [List.map_cons, outputsFromValues, outputRoundtrip o, ih]

/-- Every serialized output unit is a JSON object. -/
theorem Output.toValue_obj (o : Output) : ∃ fs, o.toValue = Value.obj fs := by
  cases o with
  | success s => exact ⟨_, rfl⟩
  | failure f => exact ⟨_, rfl⟩

/-- `Response` deserialization inverts serialization up to normalization. -/
theorem responseRoundtrip (r : Response) :
    Response.fromValue r.toValue = some (canonResponse r) := by
  cases r with
  | single o =>
    obtain ⟨fs, hfs⟩ := Output.toValue_obj o
    have h := outputRoundtrip o
    rw [show Response.toValue (Response.single o) = Output.toValue o from rfl]
    rw [hfs] at h ⊢
    simp [Response.fromValue, h, canonResponse]
  | batch os =>
    rw [show Response.toValue (Response.batch os) =
        Value.arr (os.map Output.toValue) from rfl]
    simp [Response.fromValue, outputsFromValues_map_toValue os, canonResponse]

/-! ### Engine-produced responses render idempotently -/

/-- A well-formed error object: its `data` member is never the literal JSON
`null` (the engine's own errors always have absent `data`, and a handler error
with `data: null` is not producible by serialization of a `Some` value in this
crate's generated code). -/
def ErrorWf (e : Error) : Prop := e.data ≠ some Value.null

/-- Well-formedness of an output unit. -/
def OutputWf : Output → Prop
  | .success _ => True
  | .failure f => ErrorWf f.error

/-- Well-formedness of a response envelope. -/
def ResponseWf : Response → Prop
  | .single o => OutputWf o
  | .batch os => ∀ o ∈ os, OutputWf o

/-- Normalizing a well-formed error does not change its serialization. -/
theorem canonError_toValue (e : Error) (h : ErrorWf e) :
    (canonError e).toValue = e.toValue := by
  obtain ⟨code, message, data⟩ := e
  rcases data with _ | d
  · simp [canonError, Error.toValue, code_ofCode]
  · rcases d with _ | b | n | s | xs | fs
    · exact absurd rfl h
    all_goals simp [canonError, Error.toValue, code_ofCode]

/-- Normalizing a well-formed output does not change its serialization. -/
theorem canonOutput_toValue (o : Output) (h : OutputWf o) :
    (canonOutput o).toValue = o.toValue := by
  cases o with
  | success s => rfl
  | failure f => simp [canonOutput, Output.toValue, canonError_toValue f.error h]

/-- Normalizing a well-formed response does not change its serialization. -/
theorem canonResponse_toValue (r : Response) (h : ResponseWf r) :
    (canonResponse r).toValue = r.toValue := by
  cases r with
  | single o => simp [canonResponse, Response.toValue, canonOutput_toValue o h]
  | batch os =>
    simp only [canonResponse, Response.toValue, List.map_map]
    congr 1
    apply List.map_congr_left
    intro o ho
    exact canonOutput_toValue o (h o ho)

/-- Every output the dispatcher produces is well-formed, provided the handler's
errors are. -/
theorem handle_call_wf (s : JSONRPCServer)
    (hs : ∀ m p e, s.handle m p = .error e → ErrorWf e) (c : Call) (out : Output)
    (h : s.handle_call c = some out) : OutputWf out := by
  cases c with
  | notification n => simp [JSONRPCServer.handle_call] at h
  | methodCall mc =>
    simp only [JSONRPCServer.handle_call, Option.some.injEq] at h
    cases hh : s.handle mc.method mc.params with
    | ok v => rw [hh] at h; subst h; trivial
    | error e =>
      rw [hh] at h
      subst h
      exact hs mc.method mc.params e hh
  | invalid id =>
    simp only [JSONRPCServer.handle_call, Option.some.injEq] at h
    subst h
    show ErrorWf Error.invalid_request
    intro hfalse
    simp [Error.invalid_request, Error.new] at hfalse

/-- Every response the envelope processor produces is well-formed, provided the
handler's errors are. -/
theorem handle_parsed_wf (s : JSONRPCServer)
    (hs : ∀ m p e, s.handle m p = .error e → ErrorWf e) (req : Request) (r : Response)
    (h : s.handle_parsed req = some r) : ResponseWf r := by
  cases req with
  | single call =>
    simp only [JSONRPCServer.handle_parsed, Option.map_eq_some'] at h
    obtain ⟨out, hout, rfl⟩ := h
    exact handle_call_wf s hs call out hout
  | batch calls =>
    have h' : (if (calls.filterMap s.handle_call).isEmpty then (Option.none : Option Response)
        else some (Response.batch (calls.filterMap s.handle_call))) = some r := h
    by_cases he : (calls.filterMap s.handle_call).isEmpty
    · rw [if_pos he] at h'
      exact Option.noConfusion h'
    · rw [if_neg he] at h'
      obtain rfl : Response.batch (calls.filterMap s.handle_call) = r :=
        Option.some.inj h'
      intro o ho
      obtain ⟨c, _, hc⟩ := List.mem_filterMap.mp ho
      exact handle_call_wf s hs c o hc

/-- C9.  Render/parse idempotence on produced responses: for any server whose
handler errors never carry a literal-`null` data member (true of all dispatchers
this crate generates, whose errors always have absent data), any response the
engine produces renders to text such that re-parsing that text as a response
envelope and re-rendering yields byte-identical output. -/
theorem c9_render_parse_render_idempotent (s : JSONRPCServer)
    (hs : ∀ m p e, s.handle m p = .error e → e.data ≠ some Value.null)
    (req : Request) (r : Response) (h : s.handle_parsed req = some r) :
    (parseResponseText (renderResponse r)).map renderResponse =
      some (renderResponse r) := by
  have hwf : ResponseWf r := handle_parsed_wf s hs req r h
  have hparse : parseValueText (renderResponse r) = some r.toValue :=
    parseValueText_render r.toValue
  unfold parseResponseText
  rw [hparse]
  rw [show (some r.toValue).bind Response.fromValue = Response.fromValue r.toValue
    from rfl]
  rw [responseRoundtrip r]
  rw [show (some (canonResponse r)).map renderResponse =
    some (renderResponse (canonResponse r)) from rfl]
  unfold renderResponse
  rw [canonResponse_toValue r hwf]

/-- Witness for C9: a concrete server, request and produced response. -/
theorem c9_witness :
    (parseResponseText (renderResponse (Response.single (Output.success
        { jsonrpc := some Version.V2, result := Value.null, id := Id.num 1 })))).map
      renderResponse =
      some (renderResponse (Response.single (Output.success
        { jsonrpc := some Version.V2, result := Value.null, id := Id.num 1 }))) :=
  c9_render_parse_render_idempotent constServer
    (fun _ _ _ h => Except.noConfusion h)
    (Request.single (Call.methodCall
      { jsonrpc := some Version.V2, method := "m", params := Params.none, id := Id.num 1 }))
    (Response.single (Output.success
      { jsonrpc := some Version.V2, result := Value.null, id := Id.num 1 }))
    rfl

end EasyJsonrpc
